import Mathlib

/-!
Verification of the telegram media downloader (`src/main.py`) against its
natural-language specification.  The Python program is shallowly embedded:
dictionaries become association lists that keep insertion order, the mutable
state threading becomes explicit state passing, `asyncio.gather` over the
download coroutines becomes an `Except`-valued join (a raised exception in any
task propagates), and the external Telethon client is modelled from the spec's
collaborator contract (section 6).
-/

namespace TgDl

/-- A timestamp, as far as `message.date.strftime("%Y%m%d-%H%M")` reads it. -/
structure DateTime where
  year : Nat
  month : Nat
  day : Nat
  hour : Nat
  minute : Nat
deriving DecidableEq

/-- The fields of a Telethon message that `src/main.py` reads.
`hasFile` models `message.media is not None and message.file is not None`;
`name`, `ext`, `mime` model `message.file.name`, `message.file.ext`,
`message.file.mime_type`. -/
structure Msg where
  id : Nat
  hasFile : Bool
  name : Option String
  ext : String
  mime : String
  date : DateTime
deriving DecidableEq

/-- A ledger record, i.e. one value of the per-chat dict in `state.json`.
In Python the `downloaded` key is stored only when `has_media` is true and is
only ever read behind a short-circuiting `value["has_media"] and not
value["downloaded"]`, so a plain `Bool` (false when absent) is an equivalent
model.  `message` is the transient live-message handle. -/
structure MessageRecord where
  has_media : Bool
  downloaded : Bool
  message : Option Msg
deriving DecidableEq

/-- The per-chat dict `state[user_id]`: message id to record, in insertion
order (Python dicts preserve insertion order). -/
abbrev ChatState := List (Nat × MessageRecord)

/-- The whole `state` dict: chat id to per-chat dict, in insertion order. -/
abbrev State := List (String × ChatState)

/-- Python `chat_state[message_id]` lookup (first matching key). -/
def lookupR (cs : ChatState) (k : Nat) : Option MessageRecord :=
  (cs.find? (fun p => p.1 = k)).map (·.2)

/-- Python `message_id in chat_state`. -/
def hasKeyR (cs : ChatState) (k : Nat) : Bool :=
  cs.any (fun p => p.1 = k)

/-- Python `state[user_id]` lookup (first matching key). -/
def lookupTop (st : State) (uid : String) : Option ChatState :=
  (st.find? (fun p => p.1 = uid)).map (·.2)

/-- Python `user_id in state`. -/
def hasKeyTop (st : State) (uid : String) : Bool :=
  st.any (fun p => p.1 = uid)

/-- Reading `state[user_id]` where the run has already ensured the key is
present (the `getD []` default is never reached by the program). -/
def getChat (st : State) (uid : String) : ChatState :=
  (lookupTop st uid).getD []

/-- Python `state[user_id] = cs`: replace the value of an existing key in
place, else append a fresh key at the end. -/
def setChat (st : State) (uid : String) (cs : ChatState) : State :=
  if hasKeyTop st uid then
    st.map (fun p => if p.1 = uid then (p.1, cs) else p)
  else
    st ++ [(uid, cs)]

/-- Python `del state_item["message"]` (the record with its transient handle
removed). -/
def stripRecord (r : MessageRecord) : MessageRecord :=
  { r with message := none }

/-- Stripping every record of a chat dict. -/
def stripChat (cs : ChatState) : ChatState :=
  cs.map (fun p => (p.1, stripRecord p.2))

/-- `write_state_to_file` (src/main.py lines 11-23).  It mutates the state it
is given: it inserts an empty dict for `user_id` when absent, then deletes the
`"message"` key from every record of that chat, and writes the result to
`state.json`.  The returned value is simultaneously the mutated in-memory
state and the snapshot written to the file. -/
def write_state_to_file (state : State) (user_id : String) : State :=
  let state := if hasKeyTop state user_id then state else state ++ [(user_id, [])]
  state.map (fun p => if p.1 = user_id then (p.1, stripChat p.2) else p)

/-- What the ledger file can hold when `read_state_from_file` runs: no file,
a file that is not valid JSON, or a valid snapshot. -/
inductive FileContent where
  | absent : FileContent
  | corrupt : FileContent
  | valid (st : State) : FileContent

/-- `read_state_from_file` (src/main.py lines 26-33): return the parsed file if
present, an empty dict if absent; `json.load` raises on a malformed file and
the function does not catch, modelled as `Except.error`. -/
def read_state_from_file : FileContent → Except Unit State
  | .absent => .ok []
  | .corrupt => .error ()
  | .valid st => .ok st

/-- The loop body of `get_last_id` (src/main.py lines 40-48): walk the records
in insertion order carrying the last key seen, returning the key of the first
record with `has_media` and not `downloaded`, else the last key (0 for an
empty dict). -/
def get_last_id_aux : ChatState → Nat → Nat
  | [], last_key => last_key
  | (k, v) :: rest, _ =>
    if v.has_media && !v.downloaded then k else get_last_id_aux rest k

/-- `get_last_id` (src/main.py lines 36-51).  Returns the resume id together
with the (possibly mutated) state: when the chat is absent it registers an
empty dict for it and returns 0. -/
def get_last_id (state : State) (user_id : String) : Nat × State :=
  match lookupTop state user_id with
  | some recs => (get_last_id_aux recs 0, state)
  | none => (0, state ++ [(user_id, [])])

/-- The spec's description of the resume cursor (section 4.2), written from the
spec's words for comparison with `get_last_id`: the id of the first record in
insertion order with `has_media == true and downloaded == false`; if none, the
id of the last record scanned; 0 for an empty record map. -/
def resume_point_spec (cs : ChatState) : Nat :=
  match cs.find? (fun p => p.2.has_media && !p.2.downloaded) with
  | some p => p.1
  | none => ((cs.map (·.1)).getLast?).getD 0

/-- Python `s[:-n]`: keep the first `len(s) - n` characters (code points),
except that for `n = 0` the slice `s[:-0]` is `s[:0]`, the empty string.
Used for `file_name[:-len(message.file.ext)]`. -/
def pyDropTail (s : String) (n : Nat) : String :=
  if n = 0 then "" else String.mk (s.data.take (s.data.length - n))

/-- Whether the first list of characters starts the second. -/
def strStarts : List Char → List Char → Bool
  | [], _ => true
  | _ :: _, [] => false
  | p :: ps, c :: cs => p == c && strStarts ps cs

/-- Whether `pat` occurs at some offset of `s`. -/
def strContainsAux (pat : List Char) : List Char → Bool
  | [] => strStarts pat []
  | c :: cs => strStarts pat (c :: cs) || strContainsAux pat cs

/-- Substring test, Python's `"image" in mime`, on the character lists. -/
def strContains (s pat : String) : Bool :=
  strContainsAux pat.data s.data

/-- Zero-padded two-digit field of `strftime` (`%m`, `%d`, `%H`, `%M`). -/
def pad2 (n : Nat) : String :=
  if n < 10 then "0" ++ toString n else toString n

/-- Zero-padded four-digit year field of `strftime` (`%Y`). -/
def pad4 (n : Nat) : String :=
  if n < 10 then "000" ++ toString n
  else if n < 100 then "00" ++ toString n
  else if n < 1000 then "0" ++ toString n
  else toString n

/-- `message.date.strftime("%Y%m%d-%H%M")`. -/
def strftimeYmdHM (d : DateTime) : String :=
  pad4 d.year ++ pad2 d.month ++ pad2 d.day ++ "-" ++ pad2 d.hour ++ pad2 d.minute

/-- The base file name chosen by `get_file_path` (src/main.py lines 57-65):
the attachment's own name with the last `len(ext)` characters sliced off when
a name is present, else `"{message.id} - {date:%Y%m%d-%H%M}"`. -/
def base_name (m : Msg) : String :=
  match m.name with
  | some n => pyDropTail n m.ext.length
  | none => toString m.id ++ " - " ++ strftimeYmdHM m.date

/-- The folder chosen from the MIME type (src/main.py lines 67-73). -/
def media_folder (mime : String) : String :=
  if strContains mime "image" then "images"
  else if strContains mime "video" then "videos"
  else "other"

/-- The candidate destination paths probed by `get_file_path`, in order:
candidate 0 is `media/<folder>/<base><ext>` (line 75), candidate `k+1` is
`media/<folder>/<base> - <k+1><ext>` (lines 86-90). -/
def candidate_path (m : Msg) : Nat → String
  | 0 => "media/" ++ media_folder m.mime ++ "/" ++ base_name m ++ m.ext
  | Nat.succ k =>
    "media/" ++ media_folder m.mime ++ "/" ++ base_name m ++ " - " ++
      toString (k + 1) ++ m.ext

/-- The collision loop of `get_file_path` (lines 77-92): starting from
candidate `n`, return the first candidate index whose path is not an existing
file.  The Python loop is unbounded; the model carries fuel, shown sufficient
(for fuel exceeding the number of existing files) in the theorems below. -/
def search_free (isf : String → Bool) (cand : Nat → String) : Nat → Nat → Nat
  | 0, n => n
  | fuel + 1, n => if isf (cand n) then search_free isf cand fuel (n + 1) else n

/-- `get_file_path` (src/main.py lines 54-93).  The disk is modelled by the
finite list `fs` of paths for which `pathlib.Path(...).is_file()` holds. -/
def get_file_path (fs : List String) (m : Msg) : String :=
  candidate_path m
    (search_free (fun p => p ∈ fs) (candidate_path m) (fs.length + 1) 0)

/-- The outcome of one `client.download_media` call: the coroutine raises, or
returns `None`, or returns a path. -/
inductive DLResult where
  | raised : DLResult
  | ok (path : Option String) : DLResult
deriving DecidableEq

/-- Whether a `DLResult` is a raised exception. -/
def DLResult.isRaised : DLResult → Bool
  | .raised => true
  | .ok _ => false

/-- Python `chat_state[message_id]["downloaded"] = True` (line 118). -/
def mark_downloaded (cs : ChatState) (mid : Nat) : ChatState :=
  cs.map (fun p => if p.1 = mid then (p.1, { p.2 with downloaded := true }) else p)

/-- `download_messages` (src/main.py lines 96-118).  `dl` gives each message's
download outcome and `isFile` models the `pathlib.Path(file_path).is_file()`
check.  `asyncio.gather` is a full join with default `return_exceptions`:
every task is issued, and if any raises, the awaiting coroutine re-raises
(modelled as `Except.error`) before the marking loop runs; otherwise each
record whose result is a path that is a file on disk is marked downloaded. -/
def download_messages (dl : Msg → DLResult) (isFile : String → Bool)
    (download_queue : List Msg) (chat_state : ChatState) : Except Unit ChatState :=
  if (download_queue.map dl).any DLResult.isRaised then .error ()
  else
    .ok <| download_queue.foldl
      (fun cs m =>
        match dl m with
        | .ok (some p) => if isFile p then mark_downloaded cs m.id else cs
        | _ => cs)
      chat_state

/-- Modelled from the spec: the external client's history stream
(`client.iter_messages(entity, reverse=True, min_id=last_id)`), which the
repository delegates to the Telethon library.  Spec section 6 requires "an
oldest-to-newest message stream with a 'start strictly after this id' filter",
so only messages with id strictly greater than `min_id` are yielded. -/
def iter_messages (history : List Msg) (min_id : Nat) : List Msg :=
  history.filter (fun m => decide (min_id < m.id))

/-- The mutable locals of the streaming loop of `run`: the shared state dict,
the `download_queue`, plus the observables tracked for the theorems — the
snapshots written to `state.json` so far and the message ids for which a
`client.download_media` request has been issued. -/
structure Loop where
  state : State
  queue : List Msg
  saves : List State
  attempts : List Nat
deriving DecidableEq

/-- The classification of one streamed message (src/main.py lines 137-161):
register unseen messages (enqueueing media ones), re-attach and re-enqueue
known media messages that are not yet downloaded, skip the rest. -/
def process_message (user_id : String) (l : Loop) (m : Msg) : Loop :=
  let cs := getChat l.state user_id
  match lookupR cs m.id with
  | none =>
    if m.hasFile then
      { l with
        state := setChat l.state user_id
          (cs ++ [(m.id, ⟨true, false, some m⟩)]),
        queue := l.queue ++ [m] }
    else
      { l with
        state := setChat l.state user_id (cs ++ [(m.id, ⟨false, false, none⟩)]) }
  | some r =>
    if r.has_media && !r.downloaded then
      { l with
        state := setChat l.state user_id
          (cs.map (fun p => if p.1 = m.id then (p.1, { r with message := some m }) else p)),
        queue := l.queue ++ [m] }
    else l

/-- The batch flush (src/main.py lines 163-168): download the queue, persist
the ledger, clear the queue.  A raised download propagates with the loop state
unchanged except for the attempted ids (the write and the clear are skipped). -/
def flush (dl : Msg → DLResult) (isFile : String → Bool) (user_id : String)
    (l : Loop) : Except Loop Loop :=
  let attempts := l.attempts ++ l.queue.map (·.id)
  match download_messages dl isFile l.queue (getChat l.state user_id) with
  | .error _ => .error { l with attempts := attempts }
  | .ok cs =>
    let st := write_state_to_file (setChat l.state user_id cs) user_id
    .ok { state := st, queue := [], saves := l.saves ++ [st], attempts := attempts }

/-- One iteration of the `async for` body: classify the message, then flush
when the queue has reached the batch threshold of 20. -/
def step (dl : Msg → DLResult) (isFile : String → Bool) (user_id : String)
    (l : Loop) (m : Msg) : Except Loop Loop :=
  let l := process_message user_id l m
  if 20 ≤ l.queue.length then flush dl isFile user_id l else .ok l

/-- The whole `async for message in messages` loop; a raised exception aborts
the remaining iterations and carries the loop state out to the finally. -/
def streamLoop (dl : Msg → DLResult) (isFile : String → Bool) (user_id : String) :
    List Msg → Loop → Except Loop Loop
  | [], l => .ok l
  | m :: rest, l =>
    match step dl isFile user_id l m with
    | .ok l' => streamLoop dl isFile user_id rest l'
    | .error l' => .error l'

deriving instance DecidableEq for Except

/-- What a run leaves behind: the successive `state.json` snapshots, the final
in-memory state (or an error marker when the run re-raised), and the ids for
which downloads were requested. -/
structure RunResult where
  saves : List State
  result : Except Unit State
  attempts : List Nat
deriving DecidableEq

/-- The `finally` clause of `run` (line 173): one unconditional ledger save. -/
def finallySave (user_id : String) (l : Loop) (failed : Bool) : RunResult :=
  let st := write_state_to_file l.state user_id
  ⟨l.saves ++ [st], if failed then .error () else .ok st, l.attempts⟩

/-- `run` after the state has been read (src/main.py lines 124-173): compute
the resume id, stream the history strictly after it, flush full batches as
they form, drain the leftover queue (the `if len(download_queue) >= 0` is
always taken, with no ledger write of its own), and finally persist once. -/
def run (dl : Msg → DLResult) (isFile : String → Bool) (history : List Msg)
    (user_id : String) (state0 : State) : RunResult :=
  let p := get_last_id state0 user_id
  let l0 : Loop := ⟨p.2, [], [], []⟩
  match streamLoop dl isFile user_id (iter_messages history p.1) l0 with
  | .error l => finallySave user_id l true
  | .ok l =>
    let attempts := l.attempts ++ l.queue.map (·.id)
    match download_messages dl isFile l.queue (getChat l.state user_id) with
    | .error _ => finallySave user_id { l with attempts := attempts } true
    | .ok cs =>
      finallySave user_id
        { l with state := setChat l.state user_id cs, attempts := attempts } false

/-- `run` including the initial `read_state_from_file` (lines 121-123, before
the `try`): a corrupt ledger file raises out of `run` before anything is
written. -/
def runFromFile (dl : Msg → DLResult) (isFile : String → Bool) (history : List Msg)
    (user_id : String) (fc : FileContent) : RunResult :=
  match read_state_from_file fc with
  | .error _ => ⟨[], .error (), []⟩
  | .ok st => run dl isFile history user_id st

/-- Structural decimal digit list of a natural number, most significant digit
first; used to reason about the numeral that the collision loop appends. -/
def decDigits (n : Nat) : List Char :=
  if _ : n < 10 then [Nat.digitChar n]
  else decDigits (n / 10) ++ [Nat.digitChar (n % 10)]
decreasing_by exact Nat.div_lt_self (by omega) (by omega)

/-- Whether a download call for `m` reports a path that then exists on disk,
i.e. the condition under which `download_messages` marks the record. -/
def dlSuccess (dl : Msg → DLResult) (isFile : String → Bool) (m : Msg) : Bool :=
  match dl m with
  | .ok (some p) => isFile p
  | _ => false

/-- Marking every queued message downloaded: the cumulative effect of the
marking loop of `download_messages` when every download succeeds. -/
def markAll (q : List Msg) (cs : ChatState) : ChatState :=
  q.foldl (fun cs m => mark_downloaded cs m.id) cs

/-- The batch-insensitive effect of one streamed message on the chat ledger
when every download succeeds: an unseen media message ends up registered and
downloaded, an unseen non-media message registered, a known undownloaded media
message marked downloaded, everything else untouched.  Used to state what a
completed run leaves in the ledger. -/
def finalChatStep (cs : ChatState) (m : Msg) : ChatState :=
  match lookupR cs m.id with
  | none =>
    if m.hasFile then cs ++ [(m.id, ⟨true, true, none⟩)]
    else cs ++ [(m.id, ⟨false, false, none⟩)]
  | some r =>
    if r.has_media && !r.downloaded then mark_downloaded cs m.id else cs

/-- Folding `finalChatStep` over the streamed messages. -/
def finalChat (msgs : List Msg) (cs : ChatState) : ChatState :=
  msgs.foldl finalChatStep cs

/-- Fixture date for the concrete evaluations below. -/
def date0 : DateTime := ⟨2023, 5, 7, 9, 30⟩

/-- Fixture: an image message with no original file name. -/
def imgMsg (i : Nat) : Msg := ⟨i, true, none, ".jpg", "image/jpeg", date0⟩

/-- Fixture: a plain text message with no attachment. -/
def txtMsg (i : Nat) : Msg := ⟨i, false, none, "", "text/plain", date0⟩

/-- Fixture: every download returns a path that exists. -/
def dlAllOk : Msg → DLResult := fun _ => DLResult.ok (some "media/images/x.jpg")

/-- Fixture: every path probe reports an existing file. -/
def fileAlways : String → Bool := fun _ => true

/-- Fixture: the download of message `i` raises, every other download
succeeds. -/
def dlRaiseAt (i : Nat) : Msg → DLResult :=
  fun m => if m.id = i then DLResult.raised else DLResult.ok (some "media/images/x.jpg")

/-- Fixture: every download returns no result (`None`). -/
def dlNoneAll : Msg → DLResult := fun _ => DLResult.ok none

/-- The invariant of the streaming loop of `run` when every download
succeeds, used to characterise the final ledger: the loop's state is the
post-`get_last_id` state `st1` with chat `uid` replaced by some chat map `cs`;
marking the still-queued messages in `cs` and stripping handles yields exactly
the batch-insensitive `finalChat` of the messages `Q` streamed so far; every
queued message has an undownloaded media record; keys stay distinct; and the
queue only holds streamed messages. -/
def StreamInv (st1 : State) (uid : String) (cs0 : ChatState) (Q : List Msg)
    (l : Loop) : Prop :=
  ∃ cs,
    l.state = setChat st1 uid cs ∧
    stripChat (markAll l.queue cs) = finalChat Q cs0 ∧
    (∀ m ∈ l.queue, ∃ r, lookupR cs m.id = some r ∧
      r.has_media = true ∧ r.downloaded = false) ∧
    (cs.map (·.1)).Nodup ∧
    (∀ m ∈ l.queue, m.id ∈ Q.map (·.id))

end TgDl

namespace TgDl

theorem lookupTop_cons (a : String × ChatState) (tl : State) (k : String) :
    lookupTop (a :: tl) k = if a.1 = k then some a.2 else lookupTop tl k := by
  by_cases h : a.1 = k
  · simp [lookupTop, List.find?_cons_of_pos, h]
  · simp [lookupTop, List.find?_cons_of_neg, h]

theorem lookupTop_append (s1 s2 : State) (k : String) :
    lookupTop (s1 ++ s2) k = (lookupTop s1 k).or (lookupTop s2 k) := by
  unfold lookupTop
  rw [List.find?_append]
  cases List.find? (fun p => p.1 = k) s1 <;> simp

theorem lookupTop_map_update (st : State) (uid k : String) (f : ChatState → ChatState) :
    lookupTop (st.map (fun p => if p.1 = uid then (p.1, f p.2) else p)) k =
      if k = uid then (lookupTop st uid).map f else lookupTop st k := by
  induction st with
  | nil => simp [lookupTop]
  | cons a tl ih =>
    obtain ⟨u, cs⟩ := a
    by_cases hu : u = uid
    · subst hu
      by_cases hk : k = u
      · subst hk
        simp [lookupTop_cons]
      · have hk' : ¬ u = k := fun h => hk h.symm
        simp only [List.map_cons, if_pos rfl, lookupTop_cons, ih]
        simp [hk', hk]
    · by_cases hk : u = k
      · subst hk
        simp only [List.map_cons, if_neg hu, lookupTop_cons, if_pos rfl]
        simp [hu]
      · simp only [List.map_cons, if_neg hu, lookupTop_cons, if_neg hk, ih]

theorem lookupR_cons (a : Nat × MessageRecord) (tl : ChatState) (k : Nat) :
    lookupR (a :: tl) k = if a.1 = k then some a.2 else lookupR tl k := by
  by_cases h : a.1 = k
  · simp [lookupR, List.find?_cons_of_pos, h]
  · simp [lookupR, List.find?_cons_of_neg, h]

theorem lookupR_append (c1 c2 : ChatState) (k : Nat) :
    lookupR (c1 ++ c2) k = (lookupR c1 k).or (lookupR c2 k) := by
  unfold lookupR
  rw [List.find?_append]
  cases List.find? (fun p => p.1 = k) c1 <;> simp

theorem lookupR_map_update (cs : ChatState) (key k : Nat) (g : MessageRecord → MessageRecord) :
    lookupR (cs.map (fun p => if p.1 = key then (p.1, g p.2) else p)) k =
      if k = key then (lookupR cs key).map g else lookupR cs k := by
  induction cs with
  | nil => simp [lookupR]
  | cons a tl ih =>
    obtain ⟨u, r⟩ := a
    by_cases hu : u = key
    · subst hu
      by_cases hk : k = u
      · subst hk
        simp [lookupR_cons]
      · have hk' : ¬ u = k := fun h => hk h.symm
        simp only [List.map_cons, if_pos rfl, lookupR_cons, ih]
        simp [hk', hk]
    · by_cases hk : u = k
      · subst hk
        simp only [List.map_cons, if_neg hu, lookupR_cons, if_pos rfl]
        simp [hu]
      · simp only [List.map_cons, if_neg hu, lookupR_cons, if_neg hk, ih]

theorem hasKeyTop_eq_isSome (st : State) (k : String) :
    hasKeyTop st k = (lookupTop st k).isSome := by
  induction st with
  | nil => rfl
  | cons a tl ih =>
    by_cases h : a.1 = k
    · simp [hasKeyTop, lookupTop_cons, h]
    · simp [hasKeyTop, lookupTop_cons, h, ← ih]

theorem hasKeyR_eq_isSome (cs : ChatState) (k : Nat) :
    hasKeyR cs k = (lookupR cs k).isSome := by
  induction cs with
  | nil => rfl
  | cons a tl ih =>
    by_cases h : a.1 = k
    · simp [hasKeyR, lookupR_cons, h]
    · simp [hasKeyR, lookupR_cons, h, ← ih]

theorem getLast?_cons_getD {α : Type} :
    ∀ (l : List α) (a d e : α),
      ((a :: l).getLast?).getD d = ((a :: l).getLast?).getD e
  | [], _, _, _ => rfl
  | b :: tl, a, d, e => by
    rw [List.getLast?_cons_cons]
    exact getLast?_cons_getD tl b d e

theorem get_last_id_aux_eq (cs : ChatState) (d : Nat) :
    get_last_id_aux cs d =
      match cs.find? (fun p => p.2.has_media && !p.2.downloaded) with
      | some p => p.1
      | none => ((cs.map (·.1)).getLast?).getD d := by
  induction cs generalizing d with
  | nil => rfl
  | cons a tl ih =>
    obtain ⟨k, v⟩ := a
    by_cases h : (v.has_media && !v.downloaded) = true
    · rw [get_last_id_aux, if_pos h, List.find?_cons_of_pos _ (by simpa using h)]
    · rw [get_last_id_aux, if_neg h, List.find?_cons_of_neg _ (by simpa using h), ih k]
      cases hf : tl.find? (fun p => p.2.has_media && !p.2.downloaded) with
      | some p => simp
      | none =>
        simp only []
        cases tl with
        | nil => rfl
        | cons b tl' =>
          simp only [List.map_cons, List.getLast?_cons_cons]
          exact getLast?_cons_getD _ _ _ _

/-- C8: `get_last_id` registers an absent chat id with an empty record map and
returns 0; for a present chat id it scans the records in insertion order and
returns the id of the first record with `has_media` true and `downloaded`
false, else the id of the last record scanned (0 for an empty record map, as
`resume_point_spec` spells out), leaving the state unchanged. -/
theorem c8_get_last_id_matches_spec (st : State) (uid : String) :
    (lookupTop st uid = none → get_last_id st uid = (0, st ++ [(uid, [])])) ∧
    (∀ cs, lookupTop st uid = some cs →
      get_last_id st uid = (resume_point_spec cs, st)) ∧
    (lookupTop st uid = some [] → (get_last_id st uid).1 = 0) := by
  refine ⟨fun h => ?_, fun cs h => ?_, fun h => ?_⟩
  · simp [get_last_id, h]
  · simp only [get_last_id, h, resume_point_spec, get_last_id_aux_eq]
  · simp [get_last_id, h, get_last_id_aux]

/-- C8 witness: concrete evaluations of both branches of the theorem. -/
theorem c8_get_last_id_matches_spec_witness :
    get_last_id [] "u" = (0, [("u", [])]) ∧
    get_last_id [("u", [(1, ⟨true, true, none⟩), (2, ⟨true, false, none⟩)])] "u" =
      (resume_point_spec [(1, ⟨true, true, none⟩), (2, ⟨true, false, none⟩)],
       [("u", [(1, ⟨true, true, none⟩), (2, ⟨true, false, none⟩)])]) := by
  constructor
  · exact (c8_get_last_id_matches_spec [] "u").1 (by decide)
  · exact (c8_get_last_id_matches_spec
      [("u", [(1, ⟨true, true, none⟩), (2, ⟨true, false, none⟩)])] "u").2.1
      [(1, ⟨true, true, none⟩), (2, ⟨true, false, none⟩)] (by decide)

end TgDl

namespace TgDl

/-- C9: `read_state_from_file` returns an empty ledger when `state.json` does
not exist and round-trips a valid snapshot; on a malformed file the
`json.load` error is not handled — it propagates out of `run` (which reads the
state before entering its `try`), so the run aborts with no snapshot written,
preserving the old file. -/
theorem c9_corrupt_state_aborts_before_write :
    read_state_from_file FileContent.absent = .ok [] ∧
    read_state_from_file FileContent.corrupt = .error () ∧
    (∀ st, read_state_from_file (FileContent.valid st) = .ok st) ∧
    (∀ dl isFile hist uid,
      runFromFile dl isFile hist uid FileContent.corrupt = ⟨[], .error (), []⟩) :=
  ⟨rfl, rfl, fun _ => rfl, fun _ _ _ _ => rfl⟩

theorem lookupTop_singleton_ne (uid k : String) (cs : ChatState) (h : k ≠ uid) :
    lookupTop [(uid, cs)] k = none := by
  rw [lookupTop_cons, if_neg (fun hh => h hh.symm)]
  rfl

/-- C10: `write_state_to_file` works on the very ledger it is handed: it
inserts an empty record map for an absent chat id, replaces every record of
the target chat by its `message`-stripped version, leaves every other chat's
value untouched, and the resulting state (which is also the written snapshot)
holds no transient handle in the saved chat. -/
theorem c10_write_state_strips_only_target (st : State) (uid : String) :
    (∀ k, k ≠ uid →
      lookupTop (write_state_to_file st uid) k = lookupTop st k) ∧
    (hasKeyTop st uid = false → write_state_to_file st uid = st ++ [(uid, [])]) ∧
    (∀ cs, lookupTop st uid = some cs →
      lookupTop (write_state_to_file st uid) uid = some (stripChat cs)) ∧
    (∀ cs, lookupTop (write_state_to_file st uid) uid = some cs →
      ∀ p ∈ cs, p.2.message = none) := by
  refine ⟨fun k hk => ?_, fun habs => ?_, fun cs hcs => ?_, fun cs hcs => ?_⟩
  · unfold write_state_to_file
    by_cases hpres : hasKeyTop st uid
    · rw [if_pos hpres, lookupTop_map_update, if_neg hk]
    · rw [if_neg hpres, lookupTop_map_update, if_neg hk, lookupTop_append,
        lookupTop_singleton_ne uid k [] hk]
      cases lookupTop st k <;> rfl
  · unfold write_state_to_file
    rw [if_neg (by rw [habs]; exact Bool.false_ne_true)]
    have hne : ∀ p ∈ st, p.1 ≠ uid := by
      intro p hp heq
      have : hasKeyTop st uid = true := by
        unfold hasKeyTop
        rw [List.any_eq_true]
        exact ⟨p, hp, by simp [heq]⟩
      rw [habs] at this
      exact Bool.false_ne_true this
    rw [List.map_append]
    congr 1
    · have hmap : st.map (fun p => if p.1 = uid then (p.1, stripChat p.2) else p)
          = st.map id :=
        List.map_congr_left (fun p hp => by rw [if_neg (hne p hp)]; rfl)
      rw [hmap, List.map_id]
    · simp [stripChat]
  · unfold write_state_to_file
    have hpres : hasKeyTop st uid = true := by
      rw [hasKeyTop_eq_isSome, hcs]
      rfl
    rw [if_pos hpres, lookupTop_map_update, if_pos rfl, hcs]
    rfl
  · revert hcs
    unfold write_state_to_file
    by_cases hpres : hasKeyTop st uid
    · rw [if_pos hpres, lookupTop_map_update, if_pos rfl]
      intro hcs
      cases hlk : lookupTop st uid with
      | none => rw [hlk] at hcs; exact absurd hcs (by simp)
      | some cs0 =>
        rw [hlk] at hcs
        have : cs = stripChat cs0 := by
          have := hcs
          simp only [Option.map_some] at this
          exact (Option.some.injEq _ _ ▸ this).symm
        subst this
        intro p hp
        unfold stripChat at hp
        obtain ⟨q, _, rfl⟩ := List.mem_map.mp hp
        rfl
    · rw [if_neg hpres, lookupTop_map_update, if_pos rfl, lookupTop_append]
      have h1 : lookupTop st uid = none := by
        cases hlk : lookupTop st uid with
        | none => rfl
        | some cs0 =>
          exact absurd (by rw [hasKeyTop_eq_isSome, hlk]; rfl) hpres
      rw [h1]
      intro hcs
      have : cs = stripChat [] := by
        simp only [Option.or, lookupTop_cons, if_pos rfl] at hcs
        simpa [stripChat] using hcs.symm
      subst this
      intro p hp
      exact absurd hp (by simp [stripChat])

/-- C10 witness: saving chat "b" strips its records but leaves chat "a",
including its transient handle, untouched. -/
theorem c10_write_state_strips_only_target_witness :
    lookupTop (write_state_to_file
      [("a", [(1, ⟨true, false, some (imgMsg 1)⟩)]),
       ("b", [(2, ⟨true, false, some (imgMsg 2)⟩)])] "b") "a" =
      lookupTop [("a", [(1, ⟨true, false, some (imgMsg 1)⟩)]),
       ("b", [(2, ⟨true, false, some (imgMsg 2)⟩)])] "a" ∧
    lookupTop (write_state_to_file
      [("a", [(1, ⟨true, false, some (imgMsg 1)⟩)]),
       ("b", [(2, ⟨true, false, some (imgMsg 2)⟩)])] "b") "b" =
      some (stripChat [(2, ⟨true, false, some (imgMsg 2)⟩)]) := by
  constructor
  · exact (c10_write_state_strips_only_target _ "b").1 "a" (by decide)
  · exact (c10_write_state_strips_only_target _ "b").2.2.1 _ (by decide)

end TgDl

namespace TgDl

theorem lookupR_mark (cs : ChatState) (mid k : Nat) :
    lookupR (mark_downloaded cs mid) k =
      if k = mid then (lookupR cs mid).map (fun r => { r with downloaded := true })
      else lookupR cs k := by
  unfold mark_downloaded
  exact lookupR_map_update cs mid k (fun r => { r with downloaded := true })

theorem map_set_idem (o : Option MessageRecord) :
    (o.map (fun r => { r with downloaded := true })).map
        (fun r => { r with downloaded := true })
      = o.map (fun r => { r with downloaded := true }) := by
  cases o <;> rfl

theorem download_fold_lookup (dl : Msg → DLResult) (isFile : String → Bool)
    (q : List Msg) (cs : ChatState) (k : Nat) :
    lookupR (q.foldl
      (fun cs m =>
        match dl m with
        | .ok (some p) => if isFile p then mark_downloaded cs m.id else cs
        | _ => cs)
      cs) k =
    (if q.any (fun m => m.id == k && dlSuccess dl isFile m) then
      (lookupR cs k).map (fun r => { r with downloaded := true })
    else lookupR cs k) := by
  induction q generalizing cs with
  | nil => simp only [List.foldl_nil, List.any_nil, if_neg Bool.false_ne_true]
  | cons m q ih =>
    have hstep :
        (match dl m with
          | DLResult.ok (some p) => if isFile p then mark_downloaded cs m.id else cs
          | _ => cs)
        = if dlSuccess dl isFile m then mark_downloaded cs m.id else cs := by
      unfold dlSuccess
      cases hdm : dl m with
      | raised => rfl
      | ok op => cases op with
        | none => rfl
        | some p => rfl
    rw [List.foldl_cons, List.any_cons, ih, hstep]
    by_cases hs : dlSuccess dl isFile m = true
    · rw [if_pos hs, lookupR_mark]
      by_cases hk : k = m.id
      · subst hk
        have hbeq : (m.id == m.id && dlSuccess dl isFile m) = true := by
          simp [hs]
        rw [if_pos rfl, hbeq, Bool.true_or, if_pos rfl]
        by_cases hq : (q.any fun x => x.id == m.id && dlSuccess dl isFile x) = true
        · rw [if_pos hq, map_set_idem]
        · rw [if_neg hq]
      · have hb : (m.id == k) = false := by
          cases hb : (m.id == k) with
          | false => rfl
          | true =>
            have hmk : m.id = k := by simpa using hb
            exact absurd hmk.symm hk
        rw [if_neg hk, hb, Bool.false_and, Bool.false_or]
    · have hsf : dlSuccess dl isFile m = false := by
        cases hb : dlSuccess dl isFile m with
        | false => rfl
        | true => exact absurd hb hs
      rw [if_neg hs, hsf, Bool.and_false, Bool.false_or]

/-- C4: when a batch completes without an exception, a record present before
the batch is marked `downloaded = true` exactly when some queued message with
its id had a download that returned a path (not `None`) and that path exists
on disk; in every other case (no result, or a reported path that is not a
file) the record — in particular its `downloaded = false` — is unchanged. -/
theorem c4_downloaded_iff_path_exists (dl : Msg → DLResult) (isFile : String → Bool)
    (q : List Msg) (cs cs' : ChatState)
    (h : download_messages dl isFile q cs = .ok cs')
    (k : Nat) (r : MessageRecord) (hk : lookupR cs k = some r) :
    lookupR cs' k =
      some (if q.any (fun m => m.id == k && dlSuccess dl isFile m) then
        { r with downloaded := true }
      else r) := by
  unfold download_messages at h
  by_cases hraise : (q.map dl).any DLResult.isRaised = true
  · rw [if_pos hraise] at h
    exact absurd h (by simp)
  · rw [if_neg hraise] at h
    have hcs' : _ = cs' := (Except.ok.injEq _ _ ▸ h)
    rw [← hcs', download_fold_lookup, hk]
    split <;> rfl

/-- C4 witness: a record whose download returns no result is unchanged, with
`downloaded` still false, after the batch. -/
theorem c4_downloaded_iff_path_exists_witness :
    lookupR [(5, (⟨true, false, none⟩ : MessageRecord))] 5 =
      some (if [imgMsg 5].any (fun m => m.id == 5 && dlSuccess dlNoneAll fileAlways m)
        then { (⟨true, false, none⟩ : MessageRecord) with downloaded := true }
        else ⟨true, false, none⟩) :=
  c4_downloaded_iff_path_exists dlNoneAll fileAlways [imgMsg 5]
    [(5, ⟨true, false, none⟩)] [(5, ⟨true, false, none⟩)] (by decide)
    5 ⟨true, false, none⟩ (by decide)

/-- C1: evaluation at the failing input.  Chat "u" has N = 1 media message
(id 5) with K = 0 of them downloaded; the claim requires the run to download
exactly N − K = 1 message, with the resume id 5 re-examined.  The code passes
the resume id to the client's strictly-after filter, so message 5 is never
streamed: the run issues zero download requests and leaves the record
undownloaded forever. -/
theorem c1_resume_message_never_downloaded :
    run dlAllOk fileAlways [imgMsg 5] "u" [("u", [(5, ⟨true, false, none⟩)])] =
      ⟨[[("u", [(5, ⟨true, false, none⟩)])]],
       .ok [("u", [(5, ⟨true, false, none⟩)])], []⟩ := by
  decide

/-- C2 counterexample: a run that enqueues M = 1 media message persists the
ledger 0 times during streaming and once in the finally — 1 save in total —
whereas the claim demands ceil(1/20) = 1 streaming save plus one final save,
2 in total. -/
theorem c2_ceil_counterexample :
    (run dlAllOk fileAlways [imgMsg 1] "u" []).attempts.length = 1 ∧
    (run dlAllOk fileAlways [imgMsg 1] "u" []).saves.length = 1 ∧
    ¬ ((run dlAllOk fileAlways [imgMsg 1] "u" []).saves.length =
      ((run dlAllOk fileAlways [imgMsg 1] "u" []).attempts.length + 19) / 20 + 1) := by
  refine ⟨by decide, by decide, by decide⟩

theorem finallySave_saves_ne_nil (uid : String) (l : Loop) (failed : Bool) :
    (finallySave uid l failed).saves ≠ [] := by
  unfold finallySave
  simp

/-- C5 (amended): within a batch every download is issued, but a download
call that raises propagates out of the `asyncio.gather` join: the batch
returns the exception without marking any record (successful siblings of the
same batch included), and the surrounding run aborts — performing only its
unconditional final ledger save — rather than continuing.  Only the
no-result outcome is swallowed by leaving `downloaded = false`. -/
theorem c5_raise_aborts_run (dl : Msg → DLResult) (isFile : String → Bool)
    (q : List Msg) (cs : ChatState) (m : Msg)
    (hm : m ∈ q) (hr : dl m = DLResult.raised) :
    download_messages dl isFile q cs = .error () ∧
    ∀ hist uid st0, (run dl isFile hist uid st0).saves ≠ [] := by
  constructor
  · unfold download_messages
    have hany : (q.map dl).any DLResult.isRaised = true := by
      rw [List.any_eq_true]
      exact ⟨dl m, List.mem_map_of_mem dl hm, by rw [hr]; rfl⟩
    rw [if_pos hany]
  · intro hist uid st0
    unfold run
    dsimp only
    split
    · exact finallySave_saves_ne_nil _ _ _
    · split
      · exact finallySave_saves_ne_nil _ _ _
      · exact finallySave_saves_ne_nil _ _ _

/-- C5 witness: a concrete raising batch propagates the error, and the
surrounding run still writes its final snapshot. -/
theorem c5_raise_aborts_run_witness :
    download_messages (dlRaiseAt 2) fileAlways [imgMsg 2] [] = .error () ∧
    (run (dlRaiseAt 2) fileAlways [] "u" []).saves ≠ [] := by
  have h := c5_raise_aborts_run (dlRaiseAt 2) fileAlways [imgMsg 2] [] (imgMsg 2)
    (by decide) (by decide)
  exact ⟨h.1, h.2 [] "u" []⟩

/-- C5 counterexample: with two enqueued media messages where the download of
message 2 raises and the download of message 1 succeeds, the run does not
continue — it aborts with the exception after one (final) save — and the
successful sibling's record is also left `downloaded = false`, not just the
failing item's. -/
theorem c5_run_continues_counterexample :
    run (dlRaiseAt 2) fileAlways [imgMsg 1, imgMsg 2] "u" [] =
      ⟨[[("u", [(1, ⟨true, false, none⟩), (2, ⟨true, false, none⟩)])]],
       .error (), [1, 2]⟩ := by
  decide

end TgDl

namespace TgDl

theorem download_messages_ok (dl : Msg → DLResult) (isFile : String → Bool)
    (q : List Msg) (cs : ChatState) (hok : ∀ m, dl m ≠ DLResult.raised) :
    download_messages dl isFile q cs =
      .ok (q.foldl
        (fun cs m =>
          match dl m with
          | .ok (some p) => if isFile p then mark_downloaded cs m.id else cs
          | _ => cs)
        cs) := by
  unfold download_messages
  have hfalse : (q.map dl).any DLResult.isRaised = false := by
    cases hany : (q.map dl).any DLResult.isRaised with
    | false => rfl
    | true =>
      obtain ⟨x, hx, hrx⟩ := List.any_eq_true.mp hany
      obtain ⟨m, _, rfl⟩ := List.mem_map.mp hx
      cases hdm : dl m with
      | raised => exact absurd hdm (hok m)
      | ok op => rw [hdm] at hrx; exact absurd hrx (by simp [DLResult.isRaised])
  rw [if_neg (by rw [hfalse]; exact Bool.false_ne_true)]

theorem flush_ok_shape (dl : Msg → DLResult) (isFile : String → Bool)
    (uid : String) (l : Loop) (hok : ∀ m, dl m ≠ DLResult.raised) :
    ∃ st, flush dl isFile uid l =
      .ok ⟨st, [], l.saves ++ [st], l.attempts ++ l.queue.map (·.id)⟩ := by
  unfold flush
  rw [download_messages_ok dl isFile _ _ hok]
  exact ⟨_, rfl⟩

theorem process_message_shape (uid : String) (l : Loop) (m : Msg) :
    (process_message uid l m).saves = l.saves ∧
    (process_message uid l m).attempts = l.attempts ∧
    ((process_message uid l m).queue = l.queue ∨
      (process_message uid l m).queue = l.queue ++ [m]) := by
  unfold process_message
  dsimp only
  cases hc : lookupR (getChat l.state uid) m.id with
  | none =>
    dsimp only
    by_cases hf : m.hasFile = true
    · rw [if_pos hf]
      exact ⟨rfl, rfl, Or.inr rfl⟩
    · rw [if_neg hf]
      exact ⟨rfl, rfl, Or.inl rfl⟩
  | some r =>
    dsimp only
    by_cases hr : (r.has_media && !r.downloaded) = true
    · rw [if_pos hr]
      exact ⟨rfl, rfl, Or.inr rfl⟩
    · rw [if_neg hr]
      exact ⟨rfl, rfl, Or.inl rfl⟩

theorem streamLoop_count (dl : Msg → DLResult) (isFile : String → Bool)
    (uid : String) (hok : ∀ m, dl m ≠ DLResult.raised) :
    ∀ (msgs : List Msg) (l : Loop),
      l.attempts.length % 20 = 0 → l.queue.length < 20 →
      l.saves.length = l.attempts.length / 20 →
      ∃ l', streamLoop dl isFile uid msgs l = .ok l' ∧
        l'.attempts.length % 20 = 0 ∧ l'.queue.length < 20 ∧
        l'.saves.length = l'.attempts.length / 20 := by
  intro msgs
  induction msgs with
  | nil => exact fun l h1 h2 h3 => ⟨l, rfl, h1, h2, h3⟩
  | cons m rest ih =>
    intro l h1 h2 h3
    obtain ⟨hsv, hat, hq⟩ := process_message_shape uid l m
    rw [streamLoop]
    unfold step
    by_cases hlen : 20 ≤ (process_message uid l m).queue.length
    · rw [if_pos hlen]
      obtain ⟨st, hfl⟩ := flush_ok_shape dl isFile uid (process_message uid l m) hok
      rw [hfl]
      have hq20 : (process_message uid l m).queue.length = 20 := by
        rcases hq with hq | hq
        · rw [hq] at hlen ⊢
          omega
        · rw [hq] at hlen ⊢
          simp only [List.length_append, List.length_cons, List.length_nil] at hlen ⊢
          omega
      have ih' := ih ⟨st, [], (process_message uid l m).saves ++ [st],
        (process_message uid l m).attempts ++ (process_message uid l m).queue.map (·.id)⟩
        (by simp only [List.length_append, List.length_map, hq20, hat]; omega)
        (by show (0 : Nat) < 20; omega)
        (by
          simp only [List.length_append, List.length_map, List.length_cons,
            List.length_nil, hq20, hat, hsv]
          omega)
      exact ih'
    · rw [if_neg hlen]
      exact ih (process_message uid l m) (by rw [hat]; exact h1)
        (by omega) (by rw [hsv, hat]; exact h3)

/-- C2 (amended): when no download call raises, a run that issues download
requests for M enqueued media messages persists the ledger exactly
floor(M/20) times during streaming — once per full batch of 20 — plus exactly
one unconditional final save, so `saves = attempts/20 + 1`; the sub-threshold
remainder batch is downloaded in the drain phase and recorded only by the
final save.  (Every enqueued message is attempted exactly once: each
streaming flush attempts the whole queue and clears it, the drain attempts
the rest.)  Each snapshot is written only after `download_messages` for its
batch has fully completed, so no snapshot reflects a partially-applied
batch. -/
theorem c2_saves_floor_of_attempts (dl : Msg → DLResult) (isFile : String → Bool)
    (hist : List Msg) (uid : String) (st0 : State)
    (hok : ∀ m, dl m ≠ DLResult.raised) :
    (run dl isFile hist uid st0).saves.length
      = (run dl isFile hist uid st0).attempts.length / 20 + 1 := by
  unfold run
  dsimp only
  obtain ⟨l', hsl, h1, h2, h3⟩ := streamLoop_count dl isFile uid hok
    (iter_messages hist (get_last_id st0 uid).1)
    ⟨(get_last_id st0 uid).2, [], [], []⟩ (by simp) (by simp) (by simp)
  rw [hsl]
  dsimp only
  rw [download_messages_ok dl isFile _ _ hok]
  dsimp only [finallySave]
  simp only [List.length_append, List.length_map, List.length_cons, List.length_nil]
  omega

/-- C2 witness: the amended count at a concrete one-message run. -/
theorem c2_saves_floor_of_attempts_witness :
    (run dlAllOk fileAlways [imgMsg 1] "u" []).saves.length
      = (run dlAllOk fileAlways [imgMsg 1] "u" []).attempts.length / 20 + 1 :=
  c2_saves_floor_of_attempts dlAllOk fileAlways [imgMsg 1] "u" []
    (fun m => by simp [dlAllOk])

end TgDl

namespace TgDl

theorem decDigits_lt (n : Nat) (h : n < 10) : decDigits n = [Nat.digitChar n] := by
  unfold decDigits
  rw [dif_pos h]

theorem decDigits_ge (n : Nat) (h : ¬ n < 10) :
    decDigits n = decDigits (n / 10) ++ [Nat.digitChar (n % 10)] := by
  conv_lhs => rw [decDigits]
  rw [dif_neg h]

theorem toDigitsCore_eq_decDigits :
    ∀ (fuel n : Nat) (ds : List Char), n < fuel →
      Nat.toDigitsCore 10 fuel n ds = decDigits n ++ ds := by
  intro fuel
  induction fuel with
  | zero => intro n ds h; omega
  | succ fuel ih =>
    intro n ds h
    by_cases h0 : n / 10 = 0
    · have hn10 : n < 10 := by omega
      simp only [Nat.toDigitsCore, h0, if_pos]
      rw [decDigits_lt n hn10, Nat.mod_eq_of_lt hn10]
      rfl
    · have hn10 : ¬ n < 10 := by omega
      simp only [Nat.toDigitsCore, h0, if_neg, if_false]
      rw [ih (n / 10) _ (by omega), decDigits_ge n hn10, List.append_assoc]
      rfl

theorem decDigits_ne_nil (n : Nat) : decDigits n ≠ [] := by
  by_cases h : n < 10
  · rw [decDigits_lt n h]
    simp
  · rw [decDigits_ge n h]
    simp

theorem decDigits_length_pos (n : Nat) : 1 ≤ (decDigits n).length := by
  cases hd : decDigits n with
  | nil => exact absurd hd (decDigits_ne_nil n)
  | cons a l => simp

theorem digitChar_inj_lt :
    ∀ a, a < 10 → ∀ b, b < 10 → Nat.digitChar a = Nat.digitChar b → a = b := by
  decide

theorem decDigits_inj : ∀ m, ∀ n, decDigits m = decDigits n → m = n := by
  intro m
  induction m using Nat.strong_induction_on with
  | _ m ih =>
    intro n h
    by_cases hm : m < 10 <;> by_cases hn : n < 10
    · rw [decDigits_lt m hm, decDigits_lt n hn] at h
      exact digitChar_inj_lt m hm n hn (by simpa using h)
    · exfalso
      have h2 := decDigits_length_pos (n / 10)
      rw [decDigits_lt m hm, decDigits_ge n hn] at h
      have hlen := congrArg List.length h
      simp only [List.length_cons, List.length_append, List.length_nil] at hlen
      omega
    · exfalso
      have h2 := decDigits_length_pos (m / 10)
      rw [decDigits_ge m hm, decDigits_lt n hn] at h
      have hlen := congrArg List.length h
      simp only [List.length_cons, List.length_append, List.length_nil] at hlen
      omega
    · rw [decDigits_ge m hm, decDigits_ge n hn] at h
      obtain ⟨h1, h2⟩ := List.append_inj' h rfl
      have hdiv : m / 10 = n / 10 :=
        ih (m / 10) (Nat.div_lt_self (by omega) (by omega)) (n / 10) h1
      have hmod : m % 10 = n % 10 :=
        digitChar_inj_lt _ (Nat.mod_lt m (by omega)) _ (Nat.mod_lt n (by omega))
          (by simpa using h2)
      omega

theorem nat_repr_inj (m n : Nat) (h : Nat.repr m = Nat.repr n) : m = n := by
  unfold Nat.repr Nat.toDigits at h
  rw [toDigitsCore_eq_decDigits (m + 1) m [] (by omega),
    toDigitsCore_eq_decDigits (n + 1) n [] (by omega)] at h
  have hd : decDigits m ++ [] = decDigits n ++ [] := congrArg String.data h
  simp only [List.append_nil] at hd
  exact decDigits_inj m n hd

theorem toString_nat_inj (m n : Nat) (h : toString m = toString n) : m = n :=
  nat_repr_inj m n h

theorem candidate_path_inj (m : Msg) : Function.Injective (candidate_path m) := by
  intro i j h
  match i, j with
  | 0, 0 => rfl
  | 0, Nat.succ j =>
    exfalso
    have hd := congrArg String.data h
    simp only [candidate_path, String.data_append, List.append_assoc] at hd
    have h1 := List.append_cancel_left hd
    have h2 := List.append_cancel_left h1
    have h3 := List.append_cancel_left h2
    have h4 := List.append_cancel_left h3
    have hlen := congrArg List.length h4
    simp only [List.length_append, List.length_cons, List.length_nil] at hlen
    omega
  | Nat.succ i, 0 =>
    exfalso
    have hd := congrArg String.data h
    simp only [candidate_path, String.data_append, List.append_assoc] at hd
    have h1 := List.append_cancel_left hd
    have h2 := List.append_cancel_left h1
    have h3 := List.append_cancel_left h2
    have h4 := List.append_cancel_left h3
    have hlen := congrArg List.length h4
    simp only [List.length_append, List.length_cons, List.length_nil] at hlen
    omega
  | Nat.succ i, Nat.succ j =>
    have hd := congrArg String.data h
    simp only [candidate_path, String.data_append, List.append_assoc] at hd
    have h1 := List.append_cancel_left (List.append_cancel_left
      (List.append_cancel_left (List.append_cancel_left
        (List.append_cancel_left hd))))
    have h2 : (toString (i + 1)).data = (toString (j + 1)).data :=
      List.append_cancel_right h1
    have h3 : toString (i + 1) = toString (j + 1) := congrArg String.mk h2
    have h4 := toString_nat_inj (i + 1) (j + 1) h3
    omega

theorem search_free_eq (isf : String → Bool) (cand : Nat → String) :
    ∀ (fuel n j : Nat), j < fuel →
      (∀ i, i < j → isf (cand (n + i)) = true) →
      isf (cand (n + j)) = false →
      search_free isf cand fuel n = n + j := by
  intro fuel
  induction fuel with
  | zero => intro n j h; omega
  | succ fuel ih =>
    intro n j hj hocc hfree
    cases j with
    | zero =>
      rw [Nat.add_zero] at hfree
      rw [search_free, if_neg (by rw [hfree]; exact Bool.false_ne_true)]
      omega
    | succ j =>
      have h0 : isf (cand n) = true := by
        have := hocc 0 (by omega)
        rwa [Nat.add_zero] at this
      rw [search_free, if_pos h0]
      have hrec := ih (n + 1) j (by omega)
        (fun i hi => by
          have := hocc (i + 1) (by omega)
          rwa [show n + (i + 1) = n + 1 + i by omega] at this)
        (by rw [show n + 1 + j = n + (j + 1) by omega]; exact hfree)
      rw [hrec]
      omega

theorem length_le_of_nodup_subset (l fsl : List String) (hn : l.Nodup)
    (hs : ∀ x ∈ l, x ∈ fsl) : l.length ≤ fsl.length := by
  calc l.length = l.toFinset.card := (List.toFinset_card_of_nodup hn).symm
    _ ≤ fsl.toFinset.card := Finset.card_le_card (fun x hx => by
        rw [List.mem_toFinset] at hx ⊢
        exact hs x hx)
    _ ≤ fsl.length := fsl.toFinset_card_le

theorem exists_free_candidate (fs : List String) (m : Msg) :
    ∃ j, candidate_path m j ∉ fs := by
  by_contra hall
  push_neg at hall
  have hsub : ∀ x ∈ (List.range (fs.length + 1)).map (candidate_path m), x ∈ fs := by
    intro x hx
    obtain ⟨i, _, rfl⟩ := List.mem_map.mp hx
    exact hall i
  have hnd : ((List.range (fs.length + 1)).map (candidate_path m)).Nodup :=
    (List.nodup_range _).map (candidate_path_inj m)
  have hle := length_le_of_nodup_subset _ fs hnd hsub
  simp at hle

theorem get_file_path_eq_of_first_free (fs : List String) (m : Msg) (k : Nat)
    (hocc : ∀ i, i < k → candidate_path m i ∈ fs)
    (hfree : candidate_path m k ∉ fs) :
    get_file_path fs m = candidate_path m k := by
  have hk : k ≤ fs.length := by
    have hsub : ∀ x ∈ (List.range k).map (candidate_path m), x ∈ fs := by
      intro x hx
      obtain ⟨i, hi, rfl⟩ := List.mem_map.mp hx
      exact hocc i (List.mem_range.mp hi)
    have hnd : ((List.range k).map (candidate_path m)).Nodup :=
      (List.nodup_range _).map (candidate_path_inj m)
    have := length_le_of_nodup_subset _ fs hnd hsub
    simpa using this
  unfold get_file_path
  rw [search_free_eq (fun p => p ∈ fs) (candidate_path m) (fs.length + 1) 0 k
    (by omega)
    (fun i hi => by
      rw [Nat.zero_add]
      exact decide_eq_true (hocc i hi))
    (by rw [Nat.zero_add]; exact decide_eq_false hfree)]
  rw [Nat.zero_add]

/-- C6: for a fixed message (hence fixed base name and extension), the path
resolver probes `<base><ext>`, `<base> - 1<ext>`, `<base> - 2<ext>`, ... in
order and returns the first candidate that is not an existing file, so when
the first k candidates exist on disk (as after k colliding arrivals each of
which was downloaded) and candidate k does not, it returns candidate k; and
for every disk content the returned path does not exist at the moment of
return, so no existing file is ever overwritten. -/
theorem c6_collision_numbering (fs : List String) (m : Msg) :
    get_file_path fs m ∉ fs ∧
    (∀ k, (∀ i, i < k → candidate_path m i ∈ fs) → candidate_path m k ∉ fs →
      get_file_path fs m = candidate_path m k) := by
  constructor
  · have hex := exists_free_candidate fs m
    have hfree := Nat.find_spec hex
    have hocc : ∀ i, i < Nat.find hex → candidate_path m i ∈ fs := by
      intro i hi
      have := Nat.find_min hex hi
      exact not_not.mp this
    rw [get_file_path_eq_of_first_free fs m (Nat.find hex) hocc hfree]
    exact hfree
  · exact get_file_path_eq_of_first_free fs m

/-- C6 witness: with `photo.jpg` and `photo - 1.jpg` already on disk, the
resolver returns `photo - 2.jpg`; the numbering hypotheses are discharged at
the concrete inputs. -/
theorem c6_collision_numbering_witness :
    get_file_path
        ["media/images/photo.jpg", "media/images/photo - 1.jpg"]
        ⟨7, true, some "photo.jpg", ".jpg", "image/jpeg", date0⟩ =
      candidate_path ⟨7, true, some "photo.jpg", ".jpg", "image/jpeg", date0⟩ 2 :=
  (c6_collision_numbering
      ["media/images/photo.jpg", "media/images/photo - 1.jpg"]
      ⟨7, true, some "photo.jpg", ".jpg", "image/jpeg", date0⟩).2 2
    (by decide) (by decide)

/-- C7: the base name is the attachment's original filename with its
extension stripped when a name is present (the name being the stem followed
by the declared, nonempty extension), else `"{id} - {YYYYMMDD-HHmm}"`
synthesized from the message id and date; the declared extension is appended
verbatim to the base name (shown on the collision-free path). -/
theorem c7_base_name_and_extension (fs : List String) (m : Msg)
    (stem nm : String) :
    (m.name = some nm → nm = stem ++ m.ext → m.ext ≠ "" → base_name m = stem) ∧
    (m.name = none →
      base_name m = toString m.id ++ " - " ++ strftimeYmdHM m.date) ∧
    (candidate_path m 0 ∉ fs →
      get_file_path fs m =
        "media/" ++ media_folder m.mime ++ "/" ++ base_name m ++ m.ext) := by
  refine ⟨fun hname hsplit hext => ?_, fun hname => ?_, fun hfree => ?_⟩
  · unfold base_name
    rw [hname]
    dsimp only
    subst hsplit
    have hlen : m.ext.length ≠ 0 := by
      intro h0
      apply hext
      have hd : m.ext.data = [] := List.eq_nil_of_length_eq_zero h0
      calc m.ext = String.mk m.ext.data := rfl
        _ = String.mk [] := by rw [hd]
        _ = "" := rfl
    unfold pyDropTail
    rw [if_neg hlen, String.data_append, List.length_append]
    have harith : stem.data.length + m.ext.data.length - m.ext.length
        = stem.data.length := by
      have : m.ext.length = m.ext.data.length := rfl
      omega
    rw [harith, List.take_left]
  · unfold base_name
    rw [hname]
  · rw [get_file_path_eq_of_first_free fs m 0
      (fun i hi => absurd hi (by omega)) hfree]
    rfl

/-- C7 witness: both base-name branches and the appended extension at
concrete messages. -/
theorem c7_base_name_and_extension_witness :
    base_name ⟨7, true, some "photo.jpg", ".jpg", "image/jpeg", date0⟩ = "photo" ∧
    base_name (imgMsg 5) = toString 5 ++ " - " ++ strftimeYmdHM date0 ∧
    get_file_path [] (imgMsg 5) =
      "media/" ++ media_folder "image/jpeg" ++ "/" ++ base_name (imgMsg 5) ++ ".jpg" := by
  refine ⟨?_, ?_, ?_⟩
  · exact (c7_base_name_and_extension []
      ⟨7, true, some "photo.jpg", ".jpg", "image/jpeg", date0⟩ "photo" "photo.jpg").1
      rfl (by decide) (by decide)
  · exact (c7_base_name_and_extension [] (imgMsg 5) "" "").2.1 rfl
  · exact (c7_base_name_and_extension [] (imgMsg 5) "" "").2.2 (by decide)

end TgDl

namespace TgDl

theorem stripChat_idem (cs : ChatState) : stripChat (stripChat cs) = stripChat cs := by
  unfold stripChat stripRecord
  rw [List.map_map]
  rfl

theorem stripChat_mark (cs : ChatState) (k : Nat) :
    stripChat (mark_downloaded cs k) = mark_downloaded (stripChat cs) k := by
  unfold stripChat mark_downloaded stripRecord
  rw [List.map_map, List.map_map]
  apply List.map_congr_left
  intro p _
  by_cases h : p.1 = k
  · simp [h]
  · simp [h]

theorem stripChat_markAll (q : List Msg) (cs : ChatState) :
    stripChat (markAll q cs) = markAll q (stripChat cs) := by
  induction q generalizing cs with
  | nil => rfl
  | cons m q ih =>
    unfold markAll at ih ⊢
    rw [List.foldl_cons, List.foldl_cons, ih, stripChat_mark]

theorem keys_map_update (cs : ChatState) (k : Nat) (g : MessageRecord → MessageRecord) :
    (cs.map (fun p => if p.1 = k then (p.1, g p.2) else p)).map (·.1) = cs.map (·.1) := by
  rw [List.map_map]
  apply List.map_congr_left
  intro p _
  by_cases h : p.1 = k
  · simp [h]
  · simp [h]

theorem keys_mark (cs : ChatState) (k : Nat) :
    (mark_downloaded cs k).map (·.1) = cs.map (·.1) := by
  unfold mark_downloaded
  exact keys_map_update cs k (fun r => { r with downloaded := true })

theorem keys_strip (cs : ChatState) : (stripChat cs).map (·.1) = cs.map (·.1) := by
  unfold stripChat
  rw [List.map_map]
  rfl

theorem keys_markAll (q : List Msg) (cs : ChatState) :
    (markAll q cs).map (·.1) = cs.map (·.1) := by
  induction q generalizing cs with
  | nil => rfl
  | cons m q ih =>
    unfold markAll at ih ⊢
    rw [List.foldl_cons, ih, keys_mark]

theorem markAll_append_q (q : List Msg) (m : Msg) (cs : ChatState) :
    markAll (q ++ [m]) cs = mark_downloaded (markAll q cs) m.id := by
  unfold markAll
  rw [List.foldl_append]
  rfl

theorem mark_append_cs (cs ds : ChatState) (k : Nat) :
    mark_downloaded (cs ++ ds) k = mark_downloaded cs k ++ mark_downloaded ds k := by
  unfold mark_downloaded
  rw [List.map_append]

theorem markAll_append_cs (q : List Msg) (cs ds : ChatState) :
    markAll q (cs ++ ds) = markAll q cs ++ markAll q ds := by
  induction q generalizing cs ds with
  | nil => rfl
  | cons m q ih =>
    unfold markAll at ih ⊢
    rw [List.foldl_cons, List.foldl_cons, List.foldl_cons, mark_append_cs, ih]

theorem mark_not_mem (cs : ChatState) (k : Nat) (h : k ∉ cs.map (·.1)) :
    mark_downloaded cs k = cs := by
  unfold mark_downloaded
  have : cs.map (fun p => if p.1 = k then (p.1, { p.2 with downloaded := true }) else p)
      = cs.map id :=
    List.map_congr_left (fun p hp => by
      rw [if_neg (fun he => h (by rw [← he]; exact List.mem_map_of_mem _ hp))]
      rfl)
  rw [this, List.map_id]

theorem markAll_single_fresh (q : List Msg) (k : Nat) (r : MessageRecord)
    (h : ∀ x ∈ q, x.id ≠ k) : markAll q [(k, r)] = [(k, r)] := by
  induction q with
  | nil => rfl
  | cons m q ih =>
    unfold markAll at ih ⊢
    rw [List.foldl_cons]
    have hm : mark_downloaded [(k, r)] m.id = [(k, r)] :=
      mark_not_mem _ _ (by
        simp only [List.map_cons, List.map_nil, List.mem_singleton]
        exact fun he => h m (List.mem_cons_self m q) he)
    rw [hm]
    exact ih (fun x hx => h x (List.mem_cons_of_mem m hx))

theorem lookupR_none_iff (cs : ChatState) (k : Nat) :
    lookupR cs k = none ↔ k ∉ cs.map (·.1) := by
  induction cs with
  | nil => simp [lookupR]
  | cons a tl ih =>
    rw [lookupR_cons]
    by_cases h : a.1 = k
    · simp [h]
    · simp only [if_neg h, ih, List.map_cons, List.mem_cons]
      constructor
      · intro hn hmem
        rcases hmem with hmem | hmem
        · exact h hmem.symm
        · exact hn hmem
      · intro hn hmem
        exact hn (Or.inr hmem)

theorem lookupR_strip (cs : ChatState) (k : Nat) :
    lookupR (stripChat cs) k = (lookupR cs k).map stripRecord := by
  induction cs with
  | nil => rfl
  | cons a tl ih =>
    unfold stripChat at ih ⊢
    rw [List.map_cons, lookupR_cons, lookupR_cons]
    by_cases h : a.1 = k
    · simp [h]
    · simp only [h, if_neg, if_false]
      exact ih

theorem lookupR_markAll_fresh (q : List Msg) (cs : ChatState) (k : Nat)
    (h : ∀ x ∈ q, x.id ≠ k) : lookupR (markAll q cs) k = lookupR cs k := by
  induction q generalizing cs with
  | nil => rfl
  | cons m q ih =>
    unfold markAll at ih ⊢
    rw [List.foldl_cons, ih _ (fun x hx => h x (List.mem_cons_of_mem m hx)),
      lookupR_mark, if_neg (fun he => h m (List.mem_cons_self m q) he.symm)]

theorem stripChat_id_of_none (cs : ChatState) (h : ∀ p ∈ cs, p.2.message = none) :
    stripChat cs = cs := by
  induction cs with
  | nil => rfl
  | cons a tl ih =>
    unfold stripChat at ih ⊢
    rw [List.map_cons, ih (fun p hp => h p (List.mem_cons_of_mem a hp))]
    congr 1
    have ha := h a (List.mem_cons_self a tl)
    unfold stripRecord
    cases a with
    | mk k r =>
      cases r with
      | mk x y z =>
        simp only at ha
        rw [ha]

theorem map_keyed_not_mem (cs : ChatState) (k : Nat)
    (f : Nat × MessageRecord → Nat × MessageRecord)
    (hf : ∀ p, ¬ p.1 = k → f p = p) (h : k ∉ cs.map (·.1)) :
    cs.map f = cs := by
  have : cs.map f = cs.map id :=
    List.map_congr_left (fun p hp =>
      hf p (fun he => h (by rw [← he]; exact List.mem_map_of_mem _ hp)))
  rw [this, List.map_id]

theorem strip_update_message (cs : ChatState) (k : Nat) (r : MessageRecord) (m : Msg)
    (hnd : (cs.map (·.1)).Nodup) (hl : lookupR cs k = some r) :
    stripChat (cs.map (fun p =>
      if p.1 = k then (p.1, { r with message := some m }) else p)) = stripChat cs := by
  induction cs with
  | nil => rfl
  | cons a tl ih =>
    rw [List.map_cons] at hnd
    rw [lookupR_cons] at hl
    by_cases h : a.1 = k
    · rw [if_pos h] at hl
      have hr : a.2 = r := Option.some.injEq _ _ ▸ hl
      have hknotin : k ∉ tl.map (·.1) := by
        rw [← h]
        exact (List.nodup_cons.mp hnd).1
      rw [List.map_cons, if_pos h]
      unfold stripChat
      rw [List.map_cons, List.map_cons]
      rw [map_keyed_not_mem tl k _ (fun p hp => by rw [if_neg hp]) hknotin]
      simp only [stripRecord, hr, ← h]
    · rw [if_neg h] at hl
      rw [List.map_cons, if_neg h]
      unfold stripChat at ih ⊢
      rw [List.map_cons, List.map_cons]
      rw [ih (List.nodup_cons.mp hnd).2 hl]

end TgDl

namespace TgDl

theorem lookupTop_mapconst (st : State) (uid k : String) (cs : ChatState) :
    lookupTop (st.map (fun p => if p.1 = uid then (p.1, cs) else p)) k =
      if k = uid then (lookupTop st uid).map (fun _ => cs) else lookupTop st k := by
  induction st with
  | nil => simp [lookupTop]
  | cons a tl ih =>
    obtain ⟨u, c⟩ := a
    by_cases hu : u = uid
    · subst hu
      by_cases hk : k = u
      · subst hk
        simp [lookupTop_cons]
      · have hk' : ¬ u = k := fun h => hk h.symm
        simp only [List.map_cons, if_pos rfl, lookupTop_cons, ih]
        simp [hk', hk]
    · by_cases hk : u = k
      · subst hk
        simp only [List.map_cons, if_neg hu, lookupTop_cons, if_pos rfl]
        simp [hu]
      · simp only [List.map_cons, if_neg hu, lookupTop_cons, if_neg hk, ih]

theorem lookupTop_eq_none_of_not_hasKey (st : State) (uid : String)
    (h : ¬ hasKeyTop st uid = true) : lookupTop st uid = none := by
  cases hlk : lookupTop st uid with
  | none => rfl
  | some c => exact absurd (by rw [hasKeyTop_eq_isSome, hlk]; rfl) h

theorem lookupTop_setChat_self (st : State) (uid : String) (cs : ChatState) :
    lookupTop (setChat st uid cs) uid = some cs := by
  unfold setChat
  by_cases hpres : hasKeyTop st uid
  · rw [if_pos hpres, lookupTop_mapconst, if_pos rfl]
    rw [hasKeyTop_eq_isSome] at hpres
    cases hlk : lookupTop st uid with
    | none => rw [hlk] at hpres; exact absurd hpres (by simp)
    | some c => rfl
  · rw [if_neg hpres, lookupTop_append, lookupTop_eq_none_of_not_hasKey st uid hpres,
      lookupTop_cons, if_pos rfl]
    rfl

theorem lookupTop_setChat_ne (st : State) (uid k : String) (cs : ChatState)
    (hne : k ≠ uid) : lookupTop (setChat st uid cs) k = lookupTop st k := by
  unfold setChat
  by_cases hpres : hasKeyTop st uid
  · rw [if_pos hpres, lookupTop_mapconst, if_neg hne]
  · rw [if_neg hpres, lookupTop_append, lookupTop_singleton_ne uid k cs hne]
    cases lookupTop st k <;> rfl

theorem getChat_setChat (st : State) (uid : String) (cs : ChatState) :
    getChat (setChat st uid cs) uid = cs := by
  unfold getChat
  rw [lookupTop_setChat_self]
  rfl

theorem hasKeyTop_setChat (st : State) (uid : String) (cs : ChatState) :
    hasKeyTop (setChat st uid cs) uid = true := by
  rw [hasKeyTop_eq_isSome, lookupTop_setChat_self]
  rfl

theorem keysTop_setChat (st : State) (uid : String) (cs : ChatState)
    (hpres : hasKeyTop st uid = true) :
    (setChat st uid cs).map (·.1) = st.map (·.1) := by
  unfold setChat
  rw [if_pos hpres, List.map_map]
  apply List.map_congr_left
  intro p _
  by_cases h : p.1 = uid
  · simp [h]
  · simp [h]

theorem mapTop_keyed_not_mem (st : State) (uid : String)
    (f : String × ChatState → String × ChatState)
    (hf : ∀ p, ¬ p.1 = uid → f p = p) (h : ¬ hasKeyTop st uid = true) :
    st.map f = st := by
  have hne : ∀ p ∈ st, ¬ p.1 = uid := by
    intro p hp he
    exact h (by
      unfold hasKeyTop
      rw [List.any_eq_true]
      exact ⟨p, hp, by simp [he]⟩)
  have : st.map f = st.map id :=
    List.map_congr_left (fun p hp => hf p (hne p hp))
  rw [this, List.map_id]

theorem setChat_setChat (st : State) (uid : String) (cs1 cs2 : ChatState) :
    setChat (setChat st uid cs1) uid cs2 = setChat st uid cs2 := by
  by_cases hpres : hasKeyTop st uid
  · unfold setChat
    rw [if_pos hpres, if_pos (by
      have := hasKeyTop_setChat st uid cs1
      unfold setChat at this
      rw [if_pos hpres] at this
      exact this)]
    rw [if_pos hpres, List.map_map]
    apply List.map_congr_left
    intro p _
    by_cases h : p.1 = uid
    · simp [h]
    · simp [h]
  · unfold setChat
    rw [if_neg hpres, if_pos (by
      have := hasKeyTop_setChat st uid cs1
      unfold setChat at this
      rw [if_neg hpres] at this
      exact this)]
    rw [if_neg hpres, List.map_append]
    congr 1
    · exact mapTop_keyed_not_mem st uid _ (fun p hp => by rw [if_neg hp]) hpres
    · simp

theorem write_setChat (st : State) (uid : String) (cs : ChatState) :
    write_state_to_file (setChat st uid cs) uid = setChat st uid (stripChat cs) := by
  unfold write_state_to_file
  rw [if_pos (hasKeyTop_setChat st uid cs)]
  by_cases hpres : hasKeyTop st uid
  · unfold setChat
    rw [if_pos hpres, if_pos hpres, List.map_map]
    apply List.map_congr_left
    intro p _
    by_cases h : p.1 = uid
    · simp [h]
    · simp [h]
  · unfold setChat
    rw [if_neg hpres, if_neg hpres, List.map_append]
    congr 1
    · exact mapTop_keyed_not_mem st uid _ (fun p hp => by rw [if_neg hp]) hpres
    · simp

theorem setChat_self (st : State) (uid : String) (c : ChatState)
    (hnd : (st.map (·.1)).Nodup) (hlk : lookupTop st uid = some c) :
    setChat st uid c = st := by
  induction st with
  | nil => exact absurd hlk (by simp [lookupTop])
  | cons a tl ih =>
    rw [List.map_cons, List.nodup_cons] at hnd
    rw [lookupTop_cons] at hlk
    by_cases h : a.1 = uid
    · rw [if_pos h] at hlk
      have hc : a.2 = c := Option.some.injEq _ _ ▸ hlk
      unfold setChat
      rw [if_pos (by
        unfold hasKeyTop
        rw [List.any_cons]
        simp [h])]
      rw [List.map_cons, if_pos h]
      have htl : tl.map (fun p => if p.1 = uid then (p.1, c) else p) = tl := by
        refine mapTop_keyed_not_mem tl uid _ (fun p hp => by rw [if_neg hp])
          (fun hkey => ?_)
        unfold hasKeyTop at hkey
        obtain ⟨p, hp, hpe⟩ := List.any_eq_true.mp hkey
        have hpe' : p.1 = uid := by simpa using hpe
        exact hnd.1 (by rw [h, ← hpe']; exact List.mem_map_of_mem _ hp)
      rw [htl, ← hc]
    · rw [if_neg h] at hlk
      unfold setChat
      by_cases hpres : hasKeyTop (a :: tl) uid
      · rw [if_pos hpres, List.map_cons, if_neg h]
        have hpres2 : hasKeyTop tl uid = true := by
          unfold hasKeyTop at hpres ⊢
          rw [List.any_cons] at hpres
          have : (a.1 = uid : Bool) = false := by
            simp [h]
          simp only [this, Bool.false_or] at hpres
          exact hpres
        have := ih hnd.2 hlk
        unfold setChat at this
        rw [if_pos hpres2] at this
        rw [this]
      · exfalso
        apply hpres
        unfold hasKeyTop
        rw [List.any_cons]
        have : hasKeyTop tl uid = true := by
          rw [hasKeyTop_eq_isSome, hlk]
          rfl
        unfold hasKeyTop at this
        rw [this]
        simp

end TgDl

namespace TgDl

theorem getLast?_mem_of_eq {α : Type} :
    ∀ (l : List α) (a : α), l.getLast? = some a → a ∈ l
  | [], _, h => by simp at h
  | [b], a, h => by
    simp only [List.getLast?_singleton, Option.some.injEq] at h
    rw [← h]
    exact List.mem_singleton_self b
  | b :: c :: tl, a, h => by
    rw [List.getLast?_cons_cons] at h
    exact List.mem_cons_of_mem b (getLast?_mem_of_eq (c :: tl) a h)

theorem download_step_succ (dl : Msg → DLResult) (isFile : String → Bool)
    (hsucc : ∀ m, dlSuccess dl isFile m = true) (cs : ChatState) (m : Msg) :
    (match dl m with
      | DLResult.ok (some p) => if isFile p then mark_downloaded cs m.id else cs
      | _ => cs) = mark_downloaded cs m.id := by
  have hs := hsucc m
  unfold dlSuccess at hs
  cases hdm : dl m with
  | raised => rw [hdm] at hs; simp at hs
  | ok op =>
    cases op with
    | none => rw [hdm] at hs; simp at hs
    | some p =>
      rw [hdm] at hs
      simp only [] at hs
      dsimp only
      rw [if_pos hs]

theorem download_messages_succ (dl : Msg → DLResult) (isFile : String → Bool)
    (q : List Msg) (cs : ChatState) (hsucc : ∀ m, dlSuccess dl isFile m = true) :
    download_messages dl isFile q cs = .ok (markAll q cs) := by
  have hok : ∀ m, dl m ≠ DLResult.raised := by
    intro m hr
    have hs := hsucc m
    unfold dlSuccess at hs
    rw [hr] at hs
    simp at hs
  rw [download_messages_ok dl isFile q cs hok]
  congr 1
  induction q generalizing cs with
  | nil => rfl
  | cons m q ih =>
    rw [List.foldl_cons, download_step_succ dl isFile hsucc cs m]
    unfold markAll
    rw [List.foldl_cons]
    exact ih (mark_downloaded cs m.id)

theorem find_split {p : Nat × MessageRecord → Bool} :
    ∀ (l : ChatState) (e : Nat × MessageRecord), l.find? p = some e →
      ∃ pre post, l = pre ++ e :: post ∧ ∀ x ∈ pre, ¬ p x = true := by
  intro l
  induction l with
  | nil => intro e h; exact absurd h (by simp)
  | cons a tl ih =>
    intro e h
    by_cases hp : p a = true
    · rw [List.find?_cons_of_pos _ hp] at h
      have hae : a = e := Option.some.injEq _ _ ▸ h
      exact ⟨[], tl, by rw [← hae]; rfl, fun x hx => absurd hx (by simp)⟩
    · rw [List.find?_cons_of_neg _ hp] at h
      obtain ⟨pre, post, heq, hpre⟩ := ih e h
      refine ⟨a :: pre, post, by rw [heq]; rfl, fun x hx => ?_⟩
      rcases List.mem_cons.mp hx with h1 | h1
      · rw [h1]; exact hp
      · exact hpre x h1

theorem lookupR_mem (cs : ChatState) (k : Nat) (r : MessageRecord)
    (h : lookupR cs k = some r) : (k, r) ∈ cs := by
  unfold lookupR at h
  cases hf : cs.find? (fun p => p.1 = k) with
  | none => rw [hf] at h; exact absurd h (by simp)
  | some e =>
    rw [hf] at h
    have he2 : e.2 = r := by simpa using h
    have hkey : e.1 = k := by simpa using List.find?_some hf
    have hmem := List.mem_of_find?_eq_some hf
    rw [← he2, ← hkey]
    exact hmem

theorem mark_not_undownloaded (cs : ChatState) (k : Nat)
    (h : ∀ x ∈ cs, ¬ (x.2.has_media && !x.2.downloaded) = true) :
    ∀ x ∈ mark_downloaded cs k, ¬ (x.2.has_media && !x.2.downloaded) = true := by
  intro x hx
  unfold mark_downloaded at hx
  obtain ⟨q, hq, rfl⟩ := List.mem_map.mp hx
  by_cases hk : q.1 = k
  · rw [if_pos hk]
    simp
  · rw [if_neg hk]
    exact h q hq

theorem finalChat_none :
    ∀ (P : List Msg) (cs : ChatState),
      List.find? (fun p => p.2.has_media && !p.2.downloaded) cs = none →
      ∃ extra, (finalChat P cs).map (·.1) = cs.map (·.1) ++ extra ∧
        (∀ k ∈ extra, k ∈ P.map (·.id)) ∧
        List.find? (fun p => p.2.has_media && !p.2.downloaded) (finalChat P cs) = none := by
  intro P
  induction P with
  | nil => exact fun cs h => ⟨[], by simp [finalChat], by simp, h⟩
  | cons m P ih =>
    intro cs h
    have hstep : finalChat (m :: P) cs = finalChat P (finalChatStep cs m) := rfl
    have hall : ∀ x ∈ cs, ¬ (x.2.has_media && !x.2.downloaded) = true :=
      List.find?_eq_none.mp h
    rw [hstep]
    unfold finalChatStep
    cases hl : lookupR cs m.id with
    | none =>
      dsimp only
      by_cases hf : m.hasFile = true
      · rw [if_pos hf]
        have h2 : List.find? (fun p => p.2.has_media && !p.2.downloaded)
            (cs ++ [(m.id, ⟨true, true, none⟩)]) = none := by
          apply List.find?_eq_none.mpr
          intro x hx
          rcases List.mem_append.mp hx with h1 | h1
          · exact hall x h1
          · have : x = (m.id, (⟨true, true, none⟩ : MessageRecord)) := by simpa using h1
            rw [this]
            simp
        obtain ⟨extra, he1, he2, he3⟩ := ih _ h2
        refine ⟨m.id :: extra, ?_, ?_, he3⟩
        · rw [he1]
          simp
        · intro k hk
          rcases List.mem_cons.mp hk with h1 | h1
          · rw [h1]; exact List.mem_cons_self _ _
          · exact List.mem_cons_of_mem _ (he2 k h1)
      · rw [if_neg hf]
        have h2 : List.find? (fun p => p.2.has_media && !p.2.downloaded)
            (cs ++ [(m.id, ⟨false, false, none⟩)]) = none := by
          apply List.find?_eq_none.mpr
          intro x hx
          rcases List.mem_append.mp hx with h1 | h1
          · exact hall x h1
          · have : x = (m.id, (⟨false, false, none⟩ : MessageRecord)) := by simpa using h1
            rw [this]
            simp
        obtain ⟨extra, he1, he2, he3⟩ := ih _ h2
        refine ⟨m.id :: extra, ?_, ?_, he3⟩
        · rw [he1]
          simp
        · intro k hk
          rcases List.mem_cons.mp hk with h1 | h1
          · rw [h1]; exact List.mem_cons_self _ _
          · exact List.mem_cons_of_mem _ (he2 k h1)
    | some r =>
      have hmem := lookupR_mem cs m.id r hl
      have crfalse := hall _ hmem
      simp only at crfalse
      dsimp only
      rw [if_neg crfalse]
      obtain ⟨extra, he1, he2, he3⟩ := ih _ h
      exact ⟨extra, he1, fun k hk => List.mem_cons_of_mem _ (he2 k hk), he3⟩

end TgDl

namespace TgDl

theorem finalChatStep_keys_nodup (cs : ChatState) (m : Msg)
    (hnd : (cs.map (·.1)).Nodup) : ((finalChatStep cs m).map (·.1)).Nodup := by
  unfold finalChatStep
  cases hl : lookupR cs m.id with
  | none =>
    dsimp only
    have hnotin : m.id ∉ cs.map (·.1) := (lookupR_none_iff cs m.id).mp hl
    by_cases hf : m.hasFile = true
    · rw [if_pos hf, List.map_append]
      refine hnd.append (by simp) ?_
      intro a ha hb
      have : a = m.id := by simpa using hb
      rw [this] at ha
      exact hnotin ha
    · rw [if_neg hf, List.map_append]
      refine hnd.append (by simp) ?_
      intro a ha hb
      have : a = m.id := by simpa using hb
      rw [this] at ha
      exact hnotin ha
  | some r =>
    dsimp only
    by_cases hr : (r.has_media && !r.downloaded) = true
    · rw [if_pos hr, keys_mark]
      exact hnd
    · rw [if_neg hr]
      exact hnd

theorem finalChatStep_find_undwn (cs : ChatState) (m : Msg)
    (e : Nat × MessageRecord)
    (hfind : cs.find? (fun p => p.2.has_media && !p.2.downloaded) = some e)
    (hne : m.id ≠ e.1) :
    (finalChatStep cs m).find? (fun p => p.2.has_media && !p.2.downloaded)
      = some e := by
  unfold finalChatStep
  cases hl : lookupR cs m.id with
  | none =>
    dsimp only
    by_cases hf : m.hasFile = true
    · rw [if_pos hf, List.find?_append, hfind]
      rfl
    · rw [if_neg hf, List.find?_append, hfind]
      rfl
  | some r =>
    dsimp only
    by_cases hr : (r.has_media && !r.downloaded) = true
    · rw [if_pos hr]
      obtain ⟨pre, post, heq, hpre⟩ := find_split cs e hfind
      have he0 := List.find?_some hfind
      have he' : (e.2.has_media && !e.2.downloaded) = true := he0
      subst heq
      rw [mark_append_cs, List.find?_append]
      have h1 : (mark_downloaded pre m.id).find?
          (fun p => p.2.has_media && !p.2.downloaded) = none :=
        List.find?_eq_none.mpr (mark_not_undownloaded pre m.id hpre)
      have hmcons : mark_downloaded (e :: post) m.id
          = e :: mark_downloaded post m.id := by
        unfold mark_downloaded
        rw [List.map_cons, if_neg (fun hh => hne hh.symm)]
      have hfc : List.find? (fun p => p.2.has_media && !p.2.downloaded)
          (e :: mark_downloaded post m.id) = some e :=
        List.find?_cons_of_pos _ he'
      rw [h1, hmcons, hfc]
      rfl
    · rw [if_neg hr]
      exact hfind

theorem finalChat_first_undwn :
    ∀ (P : List Msg) (cs : ChatState) (e : Nat × MessageRecord),
      (cs.map (·.1)).Nodup →
      cs.find? (fun p => p.2.has_media && !p.2.downloaded) = some e →
      (∀ m ∈ P, m.id ≠ e.1) →
      (finalChat P cs).find? (fun p => p.2.has_media && !p.2.downloaded)
        = some e := by
  intro P
  induction P with
  | nil => exact fun cs e _ hfind _ => hfind
  | cons m P ih =>
    intro cs e hnd hfind hne
    have hstep : finalChat (m :: P) cs = finalChat P (finalChatStep cs m) := rfl
    rw [hstep]
    exact ih (finalChatStep cs m) e (finalChatStep_keys_nodup cs m hnd)
      (finalChatStep_find_undwn cs m e hfind (hne m (List.mem_cons_self m P)))
      (fun m' hm' => hne m' (List.mem_cons_of_mem m hm'))

theorem finalChat_lookup_preserve :
    ∀ (P : List Msg) (cs : ChatState) (k : Nat) (r : MessageRecord),
      lookupR cs k = some r → (r.has_media && !r.downloaded) = false →
      ∃ r', lookupR (finalChat P cs) k = some r' ∧
        (r'.has_media && !r'.downloaded) = false := by
  intro P
  induction P with
  | nil => exact fun cs k r h hnu => ⟨r, h, hnu⟩
  | cons m P ih =>
    intro cs k r h hnu
    have hstep : finalChat (m :: P) cs = finalChat P (finalChatStep cs m) := rfl
    rw [hstep]
    unfold finalChatStep
    cases hl : lookupR cs m.id with
    | none =>
      dsimp only
      by_cases hf : m.hasFile = true
      · rw [if_pos hf]
        refine ih _ k r ?_ hnu
        rw [lookupR_append, h]
        rfl
      · rw [if_neg hf]
        refine ih _ k r ?_ hnu
        rw [lookupR_append, h]
        rfl
    | some r2 =>
      dsimp only
      by_cases hr2 : (r2.has_media && !r2.downloaded) = true
      · rw [if_pos hr2]
        by_cases hk : k = m.id
        · subst hk
          have hr2r : r2 = r := by
            rw [hl] at h
            exact Option.some.injEq _ _ ▸ h
          refine ih _ m.id { r with downloaded := true } ?_ (by simp)
          rw [lookupR_mark, if_pos rfl, hl, hr2r]
          rfl
        · refine ih _ k r ?_ hnu
          rw [lookupR_mark, if_neg hk]
          exact h
      · rw [if_neg hr2]
        exact ih cs k r h hnu

theorem finalChat_registers :
    ∀ (P : List Msg) (cs : ChatState) (m : Msg), m ∈ P →
      ∃ r', lookupR (finalChat P cs) m.id = some r' ∧
        (r'.has_media && !r'.downloaded) = false := by
  intro P
  induction P with
  | nil => intro cs m h; exact absurd h (by simp)
  | cons m0 P ih =>
    intro cs m hm
    have hstep : finalChat (m0 :: P) cs = finalChat P (finalChatStep cs m0) := rfl
    rw [hstep]
    rcases List.mem_cons.mp hm with h1 | h1
    · subst h1
      unfold finalChatStep
      cases hl : lookupR cs m.id with
      | none =>
        dsimp only
        by_cases hf : m.hasFile = true
        · rw [if_pos hf]
          refine finalChat_lookup_preserve P _ _ ⟨true, true, none⟩ ?_ (by simp)
          rw [lookupR_append, hl]
          simp [lookupR_cons]
        · rw [if_neg hf]
          refine finalChat_lookup_preserve P _ _ ⟨false, false, none⟩ ?_ (by simp)
          rw [lookupR_append, hl]
          simp [lookupR_cons]
      | some r =>
        dsimp only
        by_cases hr : (r.has_media && !r.downloaded) = true
        · rw [if_pos hr]
          refine finalChat_lookup_preserve P _ _ { r with downloaded := true }
            ?_ (by simp)
          rw [lookupR_mark, if_pos rfl, hl]
          rfl
        · rw [if_neg hr]
          exact finalChat_lookup_preserve P _ _ r hl (Bool.eq_false_iff.mpr hr)
    · exact ih _ m h1

theorem finalChatStep_message_none (cs : ChatState) (m : Msg)
    (h : ∀ p ∈ cs, p.2.message = none) :
    ∀ p ∈ finalChatStep cs m, p.2.message = none := by
  unfold finalChatStep
  cases hl : lookupR cs m.id with
  | none =>
    dsimp only
    by_cases hf : m.hasFile = true
    · rw [if_pos hf]
      intro p hp
      rcases List.mem_append.mp hp with h1 | h1
      · exact h p h1
      · have : p = (m.id, (⟨true, true, none⟩ : MessageRecord)) := by simpa using h1
        rw [this]
    · rw [if_neg hf]
      intro p hp
      rcases List.mem_append.mp hp with h1 | h1
      · exact h p h1
      · have : p = (m.id, (⟨false, false, none⟩ : MessageRecord)) := by simpa using h1
        rw [this]
  | some r =>
    dsimp only
    by_cases hr : (r.has_media && !r.downloaded) = true
    · rw [if_pos hr]
      intro p hp
      unfold mark_downloaded at hp
      obtain ⟨q, hq, rfl⟩ := List.mem_map.mp hp
      by_cases hk : q.1 = m.id
      · rw [if_pos hk]
        exact h q hq
      · rw [if_neg hk]
        exact h q hq
    · rw [if_neg hr]
      exact h

theorem finalChat_message_none :
    ∀ (P : List Msg) (cs : ChatState), (∀ p ∈ cs, p.2.message = none) →
      ∀ p ∈ finalChat P cs, p.2.message = none := by
  intro P
  induction P with
  | nil => exact fun cs h => h
  | cons m P ih =>
    intro cs h
    exact ih (finalChatStep cs m) (finalChatStep_message_none cs m h)

theorem finalChat_keys_nodup :
    ∀ (P : List Msg) (cs : ChatState), (cs.map (·.1)).Nodup →
      ((finalChat P cs).map (·.1)).Nodup := by
  intro P
  induction P with
  | nil => exact fun cs h => h
  | cons m P ih =>
    intro cs h
    exact ih (finalChatStep cs m) (finalChatStep_keys_nodup cs m h)

end TgDl

namespace TgDl

theorem lookupR_mapconst (cs : ChatState) (key k : Nat) (v : MessageRecord) :
    lookupR (cs.map (fun p => if p.1 = key then (p.1, v) else p)) k =
      if k = key then (lookupR cs key).map (fun _ => v) else lookupR cs k := by
  induction cs with
  | nil => simp [lookupR]
  | cons a tl ih =>
    obtain ⟨u, c⟩ := a
    by_cases hu : u = key
    · subst hu
      by_cases hk : k = u
      · subst hk
        simp [lookupR_cons]
      · have hk' : ¬ u = k := fun h => hk h.symm
        simp only [List.map_cons, if_pos rfl, lookupR_cons, ih]
        simp [hk', hk]
    · by_cases hk : u = k
      · subst hk
        simp only [List.map_cons, if_neg hu, lookupR_cons, if_pos rfl]
        simp [hu]
      · simp only [List.map_cons, if_neg hu, lookupR_cons, if_neg hk, ih]

theorem keys_map_keyed (cs : ChatState)
    (f : Nat × MessageRecord → Nat × MessageRecord)
    (hf : ∀ p, (f p).1 = p.1) : (cs.map f).map (·.1) = cs.map (·.1) := by
  rw [List.map_map]
  exact List.map_congr_left (fun p _ => hf p)

theorem finalChat_append_one (Q : List Msg) (m : Msg) (cs : ChatState) :
    finalChat (Q ++ [m]) cs = finalChatStep (finalChat Q cs) m := by
  unfold finalChat
  rw [List.foldl_append]
  rfl

theorem hasKeyTop_of_mem_keys (st : State) (uid : String)
    (h : uid ∈ st.map (·.1)) : hasKeyTop st uid = true := by
  obtain ⟨p, hp, hpe⟩ := List.mem_map.mp h
  unfold hasKeyTop
  rw [List.any_eq_true]
  exact ⟨p, hp, by simp [hpe]⟩

theorem iter_messages_mem (hist : List Msg) (a : Nat) (m : Msg) :
    m ∈ iter_messages hist a ↔ m ∈ hist ∧ a < m.id := by
  unfold iter_messages
  rw [List.mem_filter]
  simp

theorem iter_messages_ids_nodup (hist : List Msg) (a : Nat)
    (h : (hist.map (·.id)).Nodup) :
    ((iter_messages hist a).map (·.id)).Nodup := by
  unfold iter_messages
  exact h.sublist ((hist.filter_sublist).map (·.id))

end TgDl

namespace TgDl

theorem stripChat_append (c d : ChatState) :
    stripChat (c ++ d) = stripChat c ++ stripChat d := by
  unfold stripChat
  rw [List.map_append]

theorem process_message_inv (st1 : State) (uid : String) (cs0 : ChatState)
    (Q : List Msg) (l : Loop) (m : Msg)
    (hinv : StreamInv st1 uid cs0 Q l)
    (hfresh : m.id ∉ Q.map (·.id)) :
    StreamInv st1 uid cs0 (Q ++ [m]) (process_message uid l m) := by
  obtain ⟨cs, hst, heq, hq, hnd, hqids⟩ := hinv
  have hget : getChat l.state uid = cs := by rw [hst, getChat_setChat]
  have hqfresh : ∀ x ∈ l.queue, x.id ≠ m.id := fun x hx he =>
    hfresh (he ▸ hqids x hx)
  have hkeysF : (finalChat Q cs0).map (·.1) = cs.map (·.1) := by
    rw [← heq, keys_strip, keys_markAll]
  unfold process_message
  dsimp only
  rw [hget]
  cases hl : lookupR cs m.id with
  | none =>
    dsimp only
    have hnotin : m.id ∉ cs.map (·.1) := (lookupR_none_iff cs m.id).mp hl
    have hlF : lookupR (finalChat Q cs0) m.id = none :=
      (lookupR_none_iff _ m.id).mpr (by rw [hkeysF]; exact hnotin)
    by_cases hf : m.hasFile = true
    · rw [if_pos hf]
      refine ⟨cs ++ [(m.id, ⟨true, false, some m⟩)], ?_, ?_, ?_, ?_, ?_⟩
      · dsimp only
        rw [hst, setChat_setChat]
      · dsimp only
        have hm1 : mark_downloaded [(m.id, (⟨true, false, some m⟩ : MessageRecord))] m.id
            = [(m.id, ⟨true, true, some m⟩)] := by
          unfold mark_downloaded
          rw [List.map_cons, if_pos rfl]
          rfl
        rw [markAll_append_q, markAll_append_cs,
          markAll_single_fresh l.queue m.id _ hqfresh,
          mark_append_cs,
          mark_not_mem _ _ (by rw [keys_markAll]; exact hnotin),
          hm1, stripChat_append, heq, finalChat_append_one]
        unfold finalChatStep
        rw [hlF]
        dsimp only
        rw [if_pos hf]
        rfl
      · dsimp only
        intro x hx
        rcases List.mem_append.mp hx with h1 | h1
        · obtain ⟨r, hr, hm1, hm2⟩ := hq x h1
          exact ⟨r, by rw [lookupR_append, hr]; rfl, hm1, hm2⟩
        · have hxm : x = m := by simpa using h1
          subst hxm
          refine ⟨⟨true, false, some x⟩, ?_, rfl, rfl⟩
          rw [lookupR_append, hl]
          simp [lookupR_cons]
      · dsimp only
        rw [List.map_append]
        refine hnd.append (by simp) ?_
        intro a ha hb
        have hab : a = m.id := by simpa using hb
        rw [hab] at ha
        exact hnotin ha
      · dsimp only
        intro x hx
        rw [List.map_append]
        rcases List.mem_append.mp hx with h1 | h1
        · exact List.mem_append_left _ (hqids x h1)
        · have hxm : x = m := by simpa using h1
          subst hxm
          exact List.mem_append_right _ (by simp)
    · rw [if_neg hf]
      refine ⟨cs ++ [(m.id, ⟨false, false, none⟩)], ?_, ?_, ?_, ?_, ?_⟩
      · dsimp only
        rw [hst, setChat_setChat]
      · dsimp only
        rw [markAll_append_cs, markAll_single_fresh l.queue m.id _ hqfresh,
          stripChat_append, heq, finalChat_append_one]
        unfold finalChatStep
        rw [hlF]
        dsimp only
        rw [if_neg hf]
        rfl
      · dsimp only
        intro x hx
        obtain ⟨r, hr, hm1, hm2⟩ := hq x hx
        exact ⟨r, by rw [lookupR_append, hr]; rfl, hm1, hm2⟩
      · dsimp only
        rw [List.map_append]
        refine hnd.append (by simp) ?_
        intro a ha hb
        have hab : a = m.id := by simpa using hb
        rw [hab] at ha
        exact hnotin ha
      · dsimp only
        intro x hx
        rw [List.map_append]
        exact List.mem_append_left _ (hqids x hx)
  | some r =>
    dsimp only
    have hlF2 : lookupR (finalChat Q cs0) m.id = some (stripRecord r) := by
      rw [← heq, lookupR_strip, lookupR_markAll_fresh _ _ _ hqfresh, hl]
      rfl
    by_cases hr : (r.has_media && !r.downloaded) = true
    · rw [if_pos hr]
      have hrm : r.has_media = true ∧ r.downloaded = false := by
        cases hm : r.has_media <;> cases hd : r.downloaded <;>
          rw [hm, hd] at hr <;> simp at hr <;> exact ⟨rfl, rfl⟩
      refine ⟨cs.map (fun p => if p.1 = m.id then (p.1, { r with message := some m }) else p),
        ?_, ?_, ?_, ?_, ?_⟩
      · dsimp only
        rw [hst, setChat_setChat]
      · dsimp only
        rw [markAll_append_q, stripChat_mark, stripChat_markAll,
          strip_update_message cs m.id r m hnd hl,
          ← stripChat_markAll, heq, finalChat_append_one]
        unfold finalChatStep
        rw [hlF2]
        dsimp only
        rw [if_pos (by exact hr)]
      · dsimp only
        intro x hx
        rcases List.mem_append.mp hx with h1 | h1
        · obtain ⟨r2, hr2, hm1, hm2⟩ := hq x h1
          refine ⟨r2, ?_, hm1, hm2⟩
          rw [lookupR_mapconst, if_neg (hqfresh x h1)]
          exact hr2
        · have hxm : x = m := by simpa using h1
          subst hxm
          refine ⟨{ r with message := some x }, ?_, hrm.1, hrm.2⟩
          rw [lookupR_mapconst, if_pos rfl, hl]
          rfl
      · dsimp only
        rw [keys_map_keyed cs _ (fun p => by
          by_cases h : p.1 = m.id
          · rw [if_pos h]
          · rw [if_neg h])]
        exact hnd
      · dsimp only
        intro x hx
        rw [List.map_append]
        rcases List.mem_append.mp hx with h1 | h1
        · exact List.mem_append_left _ (hqids x h1)
        · have hxm : x = m := by simpa using h1
          subst hxm
          exact List.mem_append_right _ (by simp)
    · rw [if_neg hr]
      refine ⟨cs, hst, ?_, hq, hnd, ?_⟩
      · rw [heq, finalChat_append_one]
        unfold finalChatStep
        rw [hlF2]
        dsimp only
        rw [if_neg (by exact hr)]
      · intro x hx
        rw [List.map_append]
        exact List.mem_append_left _ (hqids x hx)

end TgDl

namespace TgDl

theorem flush_inv (dl : Msg → DLResult) (isFile : String → Bool)
    (st1 : State) (uid : String) (cs0 : ChatState) (Q : List Msg) (l : Loop)
    (hsucc : ∀ m, dlSuccess dl isFile m = true)
    (hinv : StreamInv st1 uid cs0 Q l) :
    ∃ l', flush dl isFile uid l = .ok l' ∧ StreamInv st1 uid cs0 Q l' := by
  obtain ⟨cs, hst, heq, hq, hnd, hqids⟩ := hinv
  have hget : getChat l.state uid = cs := by rw [hst, getChat_setChat]
  have hkeysF : (finalChat Q cs0).map (·.1) = cs.map (·.1) := by
    rw [← heq, keys_strip, keys_markAll]
  unfold flush
  rw [hget, download_messages_succ dl isFile l.queue cs hsucc]
  dsimp only
  refine ⟨_, rfl, ?_⟩
  refine ⟨finalChat Q cs0, ?_, ?_, by simp, ?_, by simp⟩
  · dsimp only
    rw [hst, setChat_setChat, write_setChat, heq]
  · show stripChat (markAll [] (finalChat Q cs0)) = finalChat Q cs0
    show stripChat (finalChat Q cs0) = finalChat Q cs0
    rw [← heq, stripChat_idem]
  · rw [hkeysF]
    exact hnd

theorem step_inv (dl : Msg → DLResult) (isFile : String → Bool)
    (st1 : State) (uid : String) (cs0 : ChatState) (Q : List Msg) (l : Loop)
    (m : Msg) (hsucc : ∀ m, dlSuccess dl isFile m = true)
    (hinv : StreamInv st1 uid cs0 Q l) (hfresh : m.id ∉ Q.map (·.id)) :
    ∃ l', step dl isFile uid l m = .ok l' ∧ StreamInv st1 uid cs0 (Q ++ [m]) l' := by
  have h1 := process_message_inv st1 uid cs0 Q l m hinv hfresh
  unfold step
  dsimp only
  by_cases hlen : 20 ≤ (process_message uid l m).queue.length
  · rw [if_pos hlen]
    obtain ⟨l', hfl, hinv'⟩ :=
      flush_inv dl isFile st1 uid cs0 (Q ++ [m]) _ hsucc h1
    exact ⟨l', hfl, hinv'⟩
  · rw [if_neg hlen]
    exact ⟨_, rfl, h1⟩

theorem streamLoop_inv (dl : Msg → DLResult) (isFile : String → Bool)
    (st1 : State) (uid : String) (cs0 : ChatState)
    (hsucc : ∀ m, dlSuccess dl isFile m = true) :
    ∀ (msgs Q : List Msg) (l : Loop),
      StreamInv st1 uid cs0 Q l →
      ((Q ++ msgs).map (·.id)).Nodup →
      ∃ l', streamLoop dl isFile uid msgs l = .ok l' ∧
        StreamInv st1 uid cs0 (Q ++ msgs) l' := by
  intro msgs
  induction msgs with
  | nil =>
    intro Q l hinv _
    exact ⟨l, rfl, by rw [List.append_nil]; exact hinv⟩
  | cons m rest ih =>
    intro Q l hinv hnd
    have hfresh : m.id ∉ Q.map (·.id) := by
      intro hmem
      rw [List.map_append] at hnd
      exact (List.disjoint_of_nodup_append hnd) hmem (by simp)
    obtain ⟨l1, hstep, hinv1⟩ :=
      step_inv dl isFile st1 uid cs0 Q l m hsucc hinv hfresh
    rw [streamLoop, hstep]
    have hassoc : Q ++ [m] ++ rest = Q ++ m :: rest := by simp
    obtain ⟨l', hsl, hinv'⟩ := ih (Q ++ [m]) l1 hinv1 (by rw [hassoc]; exact hnd)
    exact ⟨l', hsl, by rw [← hassoc]; exact hinv'⟩

end TgDl

namespace TgDl

theorem run_succ_char (dl : Msg → DLResult) (isFile : String → Bool)
    (hist : List Msg) (uid : String) (st0 : State)
    (hsucc : ∀ m, dlSuccess dl isFile m = true)
    (hnodupTop : (st0.map (·.1)).Nodup)
    (hchat : ∀ cs, lookupTop st0 uid = some cs →
      (cs.map (·.1)).Nodup ∧ ∀ p ∈ cs, p.2.message = none)
    (hids : (hist.map (·.id)).Nodup) :
    ∃ st1 cs0 saves attempts,
      lookupTop st1 uid = some cs0 ∧
      (st1.map (·.1)).Nodup ∧
      (cs0.map (·.1)).Nodup ∧
      (∀ p ∈ cs0, p.2.message = none) ∧
      (get_last_id st0 uid).1 = get_last_id_aux cs0 0 ∧
      run dl isFile hist uid st0 =
        ⟨saves ++
            [setChat st1 uid
              (finalChat (iter_messages hist (get_last_id st0 uid).1) cs0)],
         .ok (setChat st1 uid
            (finalChat (iter_messages hist (get_last_id st0 uid).1) cs0)),
         attempts⟩ := by
  have hmain : ∀ (st1 : State) (cs0 : ChatState),
      get_last_id st0 uid = (get_last_id_aux cs0 0, st1) →
      lookupTop st1 uid = some cs0 →
      (st1.map (·.1)).Nodup →
      (cs0.map (·.1)).Nodup →
      (∀ p ∈ cs0, p.2.message = none) →
      ∃ saves attempts,
        run dl isFile hist uid st0 =
          ⟨saves ++
              [setChat st1 uid
                (finalChat (iter_messages hist (get_last_id st0 uid).1) cs0)],
           .ok (setChat st1 uid
              (finalChat (iter_messages hist (get_last_id st0 uid).1) cs0)),
           attempts⟩ := by
    intro st1 cs0 hglid hlk1 hnd1 hndc hnone
    have hinv0 : StreamInv st1 uid cs0 [] ⟨st1, [], [], []⟩ := by
      refine ⟨cs0, ?_, ?_, by simp, hndc, by simp⟩
      · exact (setChat_self st1 uid cs0 hnd1 hlk1).symm
      · show stripChat (markAll [] cs0) = finalChat [] cs0
        show stripChat cs0 = cs0
        exact stripChat_id_of_none cs0 hnone
    obtain ⟨l', hsl, hinv'⟩ := streamLoop_inv dl isFile st1 uid cs0 hsucc
      (iter_messages hist (get_last_id st0 uid).1) [] ⟨st1, [], [], []⟩ hinv0
      (by
        rw [List.nil_append]
        exact iter_messages_ids_nodup hist _ hids)
    rw [List.nil_append] at hinv'
    obtain ⟨cs, hst, heqf, hq, hnd, hqids⟩ := hinv'
    have hget : getChat l'.state uid = cs := by rw [hst, getChat_setChat]
    refine ⟨l'.saves, l'.attempts ++ l'.queue.map (·.id), ?_⟩
    have hglid2 : (get_last_id st0 uid).2 = st1 := by rw [hglid]
    unfold run
    dsimp only
    rw [hglid2, hsl]
    dsimp only
    rw [hget, download_messages_succ dl isFile l'.queue cs hsucc]
    dsimp only
    unfold finallySave
    dsimp only
    rw [hst, setChat_setChat, write_setChat, heqf]
    rfl
  by_cases hlk : (lookupTop st0 uid).isSome
  · obtain ⟨cs0, hlk0⟩ := Option.isSome_iff_exists.mp hlk
    obtain ⟨hndc, hnone⟩ := hchat cs0 hlk0
    have hglid : get_last_id st0 uid = (get_last_id_aux cs0 0, st0) := by
      unfold get_last_id
      rw [hlk0]
    obtain ⟨saves, attempts, hrun⟩ := hmain st0 cs0 hglid hlk0 hnodupTop hndc hnone
    exact ⟨st0, cs0, saves, attempts, hlk0, hnodupTop, hndc, hnone,
      by rw [hglid], hrun⟩
  · have hlk0 : lookupTop st0 uid = none := by
      cases h : lookupTop st0 uid with
      | none => rfl
      | some c => rw [h] at hlk; simp at hlk
    have hglid : get_last_id st0 uid = (0, st0 ++ [(uid, [])]) := by
      unfold get_last_id
      rw [hlk0]
    have hlk1 : lookupTop (st0 ++ [(uid, [])]) uid = some [] := by
      rw [lookupTop_append, hlk0, lookupTop_cons, if_pos rfl]
      rfl
    have hnd1 : ((st0 ++ [(uid, ([] : ChatState))]).map (·.1)).Nodup := by
      rw [List.map_append]
      have h2 : (([(uid, ([] : ChatState))]).map (fun x => x.1)).Nodup := by simp
      refine hnodupTop.append h2 ?_
      intro a ha hb
      have hab : a = uid := by simpa using hb
      rw [hab] at ha
      have := hasKeyTop_of_mem_keys st0 uid ha
      rw [hasKeyTop_eq_isSome, hlk0] at this
      exact absurd this (by simp)
    obtain ⟨saves, attempts, hrun⟩ := hmain (st0 ++ [(uid, [])]) []
      (by rw [hglid]; rfl) hlk1 hnd1 List.nodup_nil
      (fun p hp => absurd hp (List.not_mem_nil p))
    exact ⟨st0 ++ [(uid, [])], [], saves, attempts, hlk1, hnd1, List.nodup_nil,
      fun p hp => absurd hp (List.not_mem_nil p), by rw [hglid]; rfl, hrun⟩

end TgDl

namespace TgDl

theorem streamLoop_noop (dl : Msg → DLResult) (isFile : String → Bool)
    (uid : String) :
    ∀ (msgs : List Msg) (l : Loop),
      l.queue = [] →
      (∀ m ∈ msgs, ∃ r, lookupR (getChat l.state uid) m.id = some r ∧
        (r.has_media && !r.downloaded) = false) →
      streamLoop dl isFile uid msgs l = .ok l := by
  intro msgs
  induction msgs with
  | nil => intro l _ _; rfl
  | cons m rest ih =>
    intro l hq hrec
    have hpm : process_message uid l m = l := by
      obtain ⟨r, hr, hcond⟩ := hrec m (List.mem_cons_self m rest)
      unfold process_message
      dsimp only
      rw [hr]
      dsimp only
      rw [if_neg (by rw [hcond]; exact Bool.false_ne_true)]
    rw [streamLoop]
    unfold step
    dsimp only
    rw [hpm, hq]
    rw [if_neg (by simp)]
    exact ih l hq (fun m' hm' => hrec m' (List.mem_cons_of_mem m hm'))

theorem resume_le_final (P : List Msg) (cs0 : ChatState)
    (hnd : (cs0.map (·.1)).Nodup)
    (hP : ∀ k ∈ P.map (·.id), get_last_id_aux cs0 0 < k) :
    get_last_id_aux cs0 0 ≤ get_last_id_aux (finalChat P cs0) 0 := by
  cases hfind : cs0.find? (fun p => p.2.has_media && !p.2.downloaded) with
  | some e =>
    have ha1 : get_last_id_aux cs0 0 = e.1 := by
      rw [get_last_id_aux_eq, hfind]
    have hne : ∀ m ∈ P, m.id ≠ e.1 := by
      intro m hm he
      have := hP m.id (List.mem_map_of_mem _ hm)
      rw [ha1, he] at this
      omega
    have hfa := finalChat_first_undwn P cs0 e hnd hfind hne
    rw [ha1, get_last_id_aux_eq, hfa]
  | none =>
    have ha1 : get_last_id_aux cs0 0 = ((cs0.map (·.1)).getLast?).getD 0 := by
      rw [get_last_id_aux_eq, hfind]
    obtain ⟨extra, hkeys, hextra, hfind2⟩ := finalChat_none P cs0 hfind
    rw [ha1, get_last_id_aux_eq, hfind2]
    dsimp only
    rw [hkeys]
    cases hex : extra with
    | nil =>
      rw [List.append_nil]
    | cons k0 tl =>
      rw [hex] at hextra
      rw [List.getLast?_append_of_ne_nil _ (by simp)]
      have hl := List.getLast?_eq_getLast_of_ne_nil (List.cons_ne_nil k0 tl)
      rw [hl]
      have hmem : (k0 :: tl).getLast (List.cons_ne_nil k0 tl) ∈ k0 :: tl :=
        List.getLast_mem _
      have hlt := hP _ (hextra _ hmem)
      rw [← ha1]
      simp only [Option.getD_some]
      omega

theorem run_noop (dl : Msg → DLResult) (isFile : String → Bool)
    (hist : List Msg) (uid : String) (sig : State) (F : ChatState)
    (hsucc : ∀ m, dlSuccess dl isFile m = true)
    (hlk : lookupTop sig uid = some F)
    (hset : setChat sig uid F = sig)
    (hwrite : write_state_to_file sig uid = sig)
    (hrec : ∀ m ∈ hist, get_last_id_aux F 0 < m.id →
      ∃ r, lookupR F m.id = some r ∧ (r.has_media && !r.downloaded) = false) :
    run dl isFile hist uid sig = ⟨[sig], .ok sig, []⟩ := by
  have hglid : get_last_id sig uid = (get_last_id_aux F 0, sig) := by
    unfold get_last_id
    rw [hlk]
  have hget : getChat sig uid = F := by
    unfold getChat
    rw [hlk]
    rfl
  have h1 : (get_last_id sig uid).1 = get_last_id_aux F 0 := by rw [hglid]
  have h2 : (get_last_id sig uid).2 = sig := by rw [hglid]
  have hnoop : streamLoop dl isFile uid
      (iter_messages hist (get_last_id sig uid).1) ⟨sig, [], [], []⟩
      = .ok ⟨sig, [], [], []⟩ := by
    apply streamLoop_noop dl isFile uid _ _ rfl
    intro m hm
    rw [h1] at hm
    obtain ⟨hmh, hlt⟩ := (iter_messages_mem hist _ m).mp hm
    show ∃ r, lookupR (getChat sig uid) m.id = some r ∧
      (r.has_media && !r.downloaded) = false
    rw [hget]
    exact hrec m hmh hlt
  unfold run
  dsimp only
  rw [h2, hnoop]
  dsimp only
  rw [hget, download_messages_succ dl isFile [] F hsucc]
  dsimp only
  have hm0 : markAll [] F = F := rfl
  rw [hm0, hset]
  unfold finallySave
  dsimp only
  rw [hwrite]
  rfl

end TgDl

namespace TgDl

/-- C3: idempotence.  Against an unchanged history (distinct message ids) and
an intact ledger (distinct keys, no transient handles — the shape
`read_state_from_file` always yields), with every download of the first run
succeeding, the first run ends with ledger `st1f` — its final snapshot — and
the second run performs zero downloads (`attempts = []`), writes exactly one
snapshot equal byte-for-byte (as a ledger value) to `st1f`, and ends in state
`st1f` again. -/
theorem c3_second_run_idempotent (dl : Msg → DLResult) (isFile : String → Bool)
    (hist : List Msg) (uid : String) (st0 : State)
    (hsucc : ∀ m, dlSuccess dl isFile m = true)
    (hnodupTop : (st0.map (·.1)).Nodup)
    (hchat : ∀ cs, lookupTop st0 uid = some cs →
      (cs.map (·.1)).Nodup ∧ ∀ p ∈ cs, p.2.message = none)
    (hids : (hist.map (·.id)).Nodup) :
    ∃ st1f, (run dl isFile hist uid st0).result = .ok st1f ∧
      (run dl isFile hist uid st0).saves.getLast? = some st1f ∧
      run dl isFile hist uid st1f = ⟨[st1f], .ok st1f, []⟩ := by
  obtain ⟨st1, cs0, saves, attempts, hlk1, hnd1, hndc, hnone, ha1, hrun⟩ :=
    run_succ_char dl isFile hist uid st0 hsucc hnodupTop hchat hids
  refine ⟨setChat st1 uid
    (finalChat (iter_messages hist (get_last_id st0 uid).1) cs0), ?_, ?_, ?_⟩
  · rw [hrun]
  · rw [hrun]
    show (saves ++ [_]).getLast? = _
    rw [List.getLast?_append_of_ne_nil _ (by simp)]
    rfl
  · have hFnone : ∀ p ∈ finalChat (iter_messages hist (get_last_id st0 uid).1) cs0,
        p.2.message = none :=
      finalChat_message_none _ cs0 hnone
    have hP : ∀ k ∈ (iter_messages hist (get_last_id st0 uid).1).map (·.id),
        get_last_id_aux cs0 0 < k := by
      intro k hk
      obtain ⟨m, hm, rfl⟩ := List.mem_map.mp hk
      obtain ⟨_, hlt⟩ := (iter_messages_mem hist _ m).mp hm
      rw [← ha1]
      exact hlt
    have ha2 := resume_le_final (iter_messages hist (get_last_id st0 uid).1)
      cs0 hndc hP
    apply run_noop dl isFile hist uid _ _ hsucc
    · exact lookupTop_setChat_self st1 uid _
    · exact setChat_setChat st1 uid _ _
    · rw [write_setChat, stripChat_id_of_none _ hFnone]
    · intro m hm hlt
      have hmP : m ∈ iter_messages hist (get_last_id st0 uid).1 := by
        rw [iter_messages_mem]
        refine ⟨hm, ?_⟩
        rw [ha1]
        omega
      exact finalChat_registers _ cs0 m hmP

/-- C3 witness: a concrete two-message history run twice from an empty
ledger. -/
theorem c3_second_run_idempotent_witness :
    ∃ st1f, (run dlAllOk fileAlways [txtMsg 1, imgMsg 2] "u" []).result
        = .ok st1f ∧
      (run dlAllOk fileAlways [txtMsg 1, imgMsg 2] "u" []).saves.getLast?
        = some st1f ∧
      run dlAllOk fileAlways [txtMsg 1, imgMsg 2] "u" st1f
        = ⟨[st1f], .ok st1f, []⟩ :=
  c3_second_run_idempotent dlAllOk fileAlways [txtMsg 1, imgMsg 2] "u" []
    (fun m => rfl) (by simp) (fun cs hcs => by simp [lookupTop] at hcs)
    (by decide)

end TgDl
